import Mathlib

/-!
The rules engine of let-the-blocks-fall, embedded in Lean.

A shallow embedding of `field/field.go` and `gamestate/gamestate.go`.

Conventions of the embedding.

* Go `int` is modelled by `Int` with exact arithmetic: the statements are
  about widths, heights, coordinates and indices of grids and blocks, all far
  below `2^63`, where 64-bit arithmetic does not wrap around.
* Go `/` and `%` truncate towards zero: `Int.tdiv` and `Int.tmod`.
* A slice is a `List Int`; its capacity is taken to be its length.
* A run-time panic (index out of range, slice bounds out of range, integer
  division by zero, negative `make` length) is the result `none`.
* A method with a pointer receiver, or one that writes through the slice of a
  value receiver, returns the new value.
* `rand.Intn(7)` is an explicit argument `draw` of every function that spawns
  a block.
* A `for` loop over `0 .. n-1` (or `n-1 .. 0`) is a function recursive on the
  number of iterations that remain.
-/

namespace LetTheBlocksFall

/-! ## Slices -/

/-- Read `m[i]`; `none` when the index is out of range. -/
def readAt (m : List Int) (i : Int) : Option Int :=
  if i < 0 then none else m[i.toNat]?

/-- Write `m[i] = v`; `none` when the index is out of range. -/
def writeAt (m : List Int) (i : Int) (v : Int) : Option (List Int) :=
  if i < 0 then none
  else if i.toNat < m.length then some (m.set i.toNat v)
  else none

/-- Slice expression `m[lo:hi]`; `none` unless `0 <= lo <= hi <= len m`. -/
def sliceAt (m : List Int) (lo hi : Int) : Option (List Int) :=
  if 0 ≤ lo ∧ lo ≤ hi ∧ hi ≤ (m.length : Int) then
    some ((m.drop lo.toNat).take (hi - lo).toNat)
  else none

/-! ## field.go -/

/-- The playing field: a `Width` x `Height` grid of colour codes, row-major. -/
structure Field where
  Width : Int
  Height : Int
  Matrix : List Int
  deriving DecidableEq, Repr

/-- The current block: shape matrix, dimensions of the matrix, position. -/
structure Block where
  Width : Int
  Height : Int
  X : Int
  Y : Int
  Matrix : List Int
  deriving DecidableEq, Repr

/-- `NewField(w, h)`: a blank field. `make` panics on a negative length. -/
def NewField (w h : Int) : Option Field :=
  if w * h < 0 then none
  else some { Width := w, Height := h, Matrix := List.replicate (w * h).toNat 0 }

/-- `NewBlock()`, with the value of `rand.Intn(7)` as `draw`.  The `switch`
has no default case: any other value leaves the zero-valued block. -/
def NewBlock (draw : Nat) : Block :=
  match draw with
  | 0 => { Matrix := [0, 1, 0, 1, 1, 1, 0, 0, 0], Width := 3, Height := 3, X := 0, Y := 0 }
  | 1 => { Matrix := [2, 2, 2, 2], Width := 2, Height := 2, X := 0, Y := 0 }
  | 2 => { Matrix := [3, 3, 0,
                      0, 3, 0,
                      0, 3, 0], Width := 3, Height := 3, X := 0, Y := 0 }
  | 3 => { Matrix := [0, 4, 4,
                      0, 4, 0,
                      0, 4, 0], Width := 3, Height := 3, X := 0, Y := 0 }
  | 4 => { Matrix := [0, 0, 0, 0,
                      5, 5, 5, 5,
                      0, 0, 0, 0,
                      0, 0, 0, 0], Width := 4, Height := 4, X := 0, Y := 0 }
  | 5 => { Matrix := [6, 6, 0,
                      0, 6, 6,
                      0, 0, 0], Width := 3, Height := 3, X := 0, Y := 0 }
  | 6 => { Matrix := [0, 7, 7,
                      7, 7, 0,
                      0, 0, 0], Width := 3, Height := 3, X := 0, Y := 0 }
  | _ => { Matrix := [], Width := 0, Height := 0, X := 0, Y := 0 }

/-- `Block.Copy`: a block with a fresh matrix of the same contents. -/
def Block.Copy (b : Block) : Block :=
  { Matrix := b.Matrix, X := b.X, Y := b.Y, Width := b.Width, Height := b.Height }

/-- The loop of `DrawBlock`: `n` iterations remain, the next index is `i`,
`m` is the field matrix so far. -/
def Field.DrawBlock.loop (f : Field) (b : Block) : Nat → Nat → List Int → Option (List Int)
  | 0, _, m => some m
  | n + 1, i, m =>
    if b.Width = 0 then none
    else
      let x := Int.tmod i b.Width + b.X
      let y := Int.tdiv i b.Width + b.Y
      let targeti := y * f.Width + x
      match b.Matrix[i]? with
      | none => none
      | some c =>
        if c ≠ 0 then
          match writeAt m targeti c with
          | none => none
          | some m' => Field.DrawBlock.loop f b n (i + 1) m'
        else Field.DrawBlock.loop f b n (i + 1) m

/-- `Field.DrawBlock`: draws the block onto the field (no bounds check of its
own; the writes go through the shared slice). -/
def Field.DrawBlock (f : Field) (b : Block) : Option Field :=
  match Field.DrawBlock.loop f b b.Matrix.length 0 f.Matrix with
  | none => none
  | some m => some { f with Matrix := m }

/-- The loop of `CanPlace`: `n` iterations remain, the next index is `i`. -/
def Field.CanPlace.loop (f : Field) (b : Block) : Nat → Nat → Option Bool
  | 0, _ => some true
  | n + 1, i =>
    if b.Width = 0 then none
    else
      let x := Int.tmod i b.Width + b.X
      let y := Int.tdiv i b.Width + b.Y
      match b.Matrix[i]? with
      | none => none
      | some c =>
        if c = 0 then Field.CanPlace.loop f b n (i + 1)
        else if x < 0 ∨ y < 0 ∨ x ≥ f.Width ∨ y ≥ f.Height then some false
        else
          let targeti := y * f.Width + x
          match readAt f.Matrix targeti with
          | none => none
          | some t =>
            if t ≠ 0 ∧ c ≠ 0 then some false
            else Field.CanPlace.loop f b n (i + 1)

/-- `Field.CanPlace`. -/
def Field.CanPlace (f : Field) (b : Block) : Option Bool :=
  Field.CanPlace.loop f b b.Matrix.length 0

/-- The completeness test of `ClearLines` on the slice `line`. -/
def lineComplete (line : List Int) : Bool :=
  line.foldl (fun acc c => if c = 0 then false else acc) true

/-- The shift loop of `ClearLines`, `for i := linestart - 1; i >= 0; i--`:
`n` iterations remain, the next index is `n - 1`. -/
def Field.ClearLines.shift (w : Int) : Nat → List Int → Option (List Int)
  | 0, m => some m
  | n + 1, m =>
    match readAt m n with
    | none => none
    | some v =>
      match writeAt m ((n : Int) + w) v with
      | none => none
      | some m' => Field.ClearLines.shift w n m'

/-- The erase loop of `ClearLines`, `for i := 0; i < f.Width; i++`. -/
def Field.ClearLines.erase : Nat → Nat → List Int → Option (List Int)
  | 0, _, m => some m
  | n + 1, i, m =>
    match writeAt m i 0 with
    | none => none
    | some m' => Field.ClearLines.erase n (i + 1) m'

/-- The outer loop of `ClearLines`, `for l := f.Height - 1; l >= 0; l--`:
`n` iterations remain, the next line is `l = n - 1`. -/
def Field.ClearLines.loop (w : Int) : Nat → List Int → Int → Option (List Int × Int)
  | 0, m, linesCleared => some (m, linesCleared)
  | n + 1, m, linesCleared =>
    let l : Int := n
    let linestart := l * w
    let lineend := (l + 1) * w - 1
    match sliceAt m linestart lineend with
    | none => none
    | some line =>
      if !lineComplete line then Field.ClearLines.loop w n m linesCleared
      else
        match Field.ClearLines.shift w linestart.toNat m with
        | none => none
        | some m1 =>
          match Field.ClearLines.erase w.toNat 0 m1 with
          | none => none
          | some m2 => Field.ClearLines.loop w n m2 (linesCleared + 1)

/-- `Field.ClearLines`: the field afterwards and the returned count. -/
def Field.ClearLines (f : Field) : Option (Field × Int) :=
  match Field.ClearLines.loop f.Width f.Height.toNat f.Matrix 0 with
  | none => none
  | some (m, linesCleared) => some ({ f with Matrix := m }, linesCleared)

/-- The loop of `Rotate`: `matrix` is the copy taken on entry, `m` the block
matrix so far. -/
def Block.Rotate.loop (b : Block) (matrix : List Int) : Nat → Nat → List Int → Option (List Int)
  | 0, _, m => some m
  | n + 1, i, m =>
    if b.Width = 0 then none
    else
      let x := Int.tmod i b.Width
      let y := Int.tdiv i b.Width
      let j := x * b.Height + ((b.Height - 1) - y)
      match matrix[i]? with
      | none => none
      | some v =>
        match writeAt m j v with
        | none => none
        | some m' => Block.Rotate.loop b matrix n (i + 1) m'

/-- `Block.Rotate`. -/
def Block.Rotate (b : Block) : Option Block :=
  match Block.Rotate.loop b b.Matrix b.Matrix.length 0 b.Matrix with
  | none => none
  | some m => some { b with Matrix := m }

/-! ## gamestate.go -/

/-- The session: field, current block, cleared-line counter. -/
structure GameState where
  Field : Field
  Block : Block
  LinesCleared : Int
  deriving DecidableEq, Repr

/-- `GameState.centerBlock`. -/
def GameState.centerBlock (gs : GameState) : GameState :=
  { gs with Block := { gs.Block with X := Int.tdiv gs.Field.Width 2 - Int.tdiv gs.Block.Width 2 } }

/-- `New(w, h)`, with the draw of `NewBlock`. -/
def New (w h : Int) (draw : Nat) : Option GameState :=
  match NewField w h with
  | none => none
  | some f => some (GameState.centerBlock { Field := f, Block := NewBlock draw, LinesCleared := 0 })

/-- The translated copy that `Nudge` tests. -/
def GameState.nudged (gs : GameState) (delta : Int) (vertical : Bool) : LetTheBlocksFall.Block :=
  let oldBlck := gs.Block.Copy
  let tmpBlck := oldBlck.Copy
  if vertical then { tmpBlck with Y := tmpBlck.Y + delta }
  else { tmpBlck with X := tmpBlck.X + delta }

/-- `GameState.Nudge(delta, vertical)`; `draw` is used only when the block is
dropped and a new one is spawned. -/
def GameState.Nudge (gs : GameState) (delta : Int) (vertical : Bool) (draw : Nat) :
    Option GameState :=
  let oldBlck := gs.Block.Copy
  let tmpBlck := gs.nudged delta vertical
  match gs.Field.CanPlace tmpBlck with
  | none => none
  | some true => some { gs with Block := tmpBlck }
  | some false =>
    if vertical = true ∧ delta > 0 then
      match gs.Field.DrawBlock oldBlck with
      | none => none
      | some f => some (GameState.centerBlock { gs with Field := f, Block := NewBlock draw })
    else some gs

/-- `GameState.RotateBlock`. -/
def GameState.RotateBlock (gs : GameState) : Option GameState :=
  match gs.Block.Copy.Rotate with
  | none => none
  | some tmpBlck =>
    match gs.Field.CanPlace tmpBlck with
    | none => none
    | some true => some { gs with Block := tmpBlck }
    | some false => some gs

/-- `GameState.ClearCompleteLines`. -/
def GameState.ClearCompleteLines (gs : GameState) : Option GameState :=
  match gs.Field.ClearLines with
  | none => none
  | some (f, n) => some { gs with Field := f, LinesCleared := gs.LinesCleared + n }

/-! ## Drivers: sequences of calls -/

/-- One call a driver can make on a session. -/
inductive Op where
  | nudge (delta : Int) (vertical : Bool) (draw : Nat)
  | rotate
  | clear
  deriving DecidableEq, Repr

/-- Perform one call. -/
def GameState.step (gs : GameState) : Op → Option GameState
  | Op.nudge delta vertical draw => gs.Nudge delta vertical draw
  | Op.rotate => gs.RotateBlock
  | Op.clear => gs.ClearCompleteLines

/-- Perform a finite sequence of calls, left to right. -/
def GameState.run (gs : GameState) : List Op → Option GameState
  | [] => some gs
  | op :: ops =>
    match gs.step op with
    | none => none
    | some gs' => GameState.run gs' ops

/-- The call puts cells where the current block may be: it is a `Nudge` that
locks the block and spawns the next one (a downward nudge that is not
accepted), or a `ClearCompleteLines` that clears at least one line. -/
def GameState.movesCells (gs : GameState) : Op → Bool
  | Op.nudge delta vertical _ =>
    vertical && decide (delta > 0) &&
      !(gs.Field.CanPlace (gs.nudged delta vertical) == some true)
  | Op.rotate => false
  | Op.clear =>
    match gs.Field.ClearLines with
    | some (_, n) => n != 0
    | none => false

/-- The call, if it spawns a block or clears a line, leaves the current block
on free cells inside the grid. -/
def GameState.safe (gs : GameState) (op : Op) : Bool :=
  !gs.movesCells op ||
    (match gs.step op with
     | some gs' => gs'.Field.CanPlace gs'.Block == some true
     | none => true)

/-- Every call of the sequence is safe in the state it is made in. -/
def GameState.safeRun (gs : GameState) : List Op → Bool
  | [] => true
  | op :: ops =>
    gs.safe op &&
      (match gs.step op with
       | none => true
       | some gs' => GameState.safeRun gs' ops)

/-- The draw carried by the call is a value of `rand.Intn(7)`. -/
def Op.drawInRange : Op → Bool
  | Op.nudge _ _ draw => decide (draw < 7)
  | Op.rotate => true
  | Op.clear => true

/-- The current block is placeable, and field and block are well formed:
positive widths, matrices of `Width * Height` cells. -/
def GameState.sound (gs : GameState) : Prop :=
  gs.Field.CanPlace gs.Block = some true ∧
  0 < gs.Field.Width ∧
  (gs.Field.Matrix.length : Int) = gs.Field.Width * gs.Field.Height ∧
  0 < gs.Block.Width ∧
  (gs.Block.Matrix.length : Int) = gs.Block.Width * gs.Block.Height

/-- Example run on a 4 x 6 field, with a `ClearCompleteLines` after every
other call as the driver makes them: the bar is dropped and locked, its row is
cleared, the square that was spawned is moved down and turned. -/
def tickOps : List Op :=
  [Op.clear, Op.nudge 4 true 0, Op.clear, Op.nudge 1 true 1, Op.clear,
   Op.nudge 1 true 0, Op.clear, Op.rotate, Op.clear]

/-- Example state: the T shape at the top left of an empty 4 x 4 field. -/
def exampleT : GameState :=
  ⟨⟨4, 4, List.replicate 16 0⟩, ⟨3, 3, 0, 0, [0, 1, 0, 1, 1, 1, 0, 0, 0]⟩, 0⟩

/-- Example state: `exampleT` with the block turned a quarter clockwise. -/
def exampleTRotated : GameState :=
  ⟨⟨4, 4, List.replicate 16 0⟩, ⟨3, 3, 0, 0, [0, 1, 0, 0, 1, 1, 0, 1, 0]⟩, 0⟩

/-- Example run on a 4 x 6 field: drop the bar, drop the Z shape onto it, turn
the next shape twice and move it under the overhang of the Z shape. -/
def overhangOps : List Op :=
  [Op.nudge 4 true 0, Op.nudge 1 true 5, Op.nudge 3 true 0, Op.nudge 1 true 2,
   Op.rotate, Op.rotate, Op.nudge (-2) false 0, Op.nudge 2 true 0]

/-! ## Predicates used in the statements -/

/-- What the body of the `CanPlace` loop demands of cell `i` of the block. -/
def cellFree (f : Field) (b : Block) (i : Nat) : Prop :=
  ∀ c, b.Matrix[i]? = some c → c ≠ 0 →
    0 ≤ Int.tmod i b.Width + b.X ∧ Int.tmod i b.Width + b.X < f.Width ∧
    0 ≤ Int.tdiv i b.Width + b.Y ∧ Int.tdiv i b.Width + b.Y < f.Height ∧
    readAt f.Matrix ((Int.tdiv i b.Width + b.Y) * f.Width + (Int.tmod i b.Width + b.X)) = some 0

/-- A row is complete, in the words of the specification: every one of its
`Width` cells is non-zero. -/
def rowComplete (f : Field) (r : Nat) : Bool :=
  (List.range f.Width.toNat).all fun x =>
    match readAt f.Matrix ((r : Int) * f.Width + (x : Int)) with
    | some v => v != 0
    | none => false

/-- The field index that `DrawBlock` and `CanPlace` compute for cell `i` of
the block: `targeti = y*f.Width + x`. -/
def target (f : Field) (b : Block) (i : Nat) : Int :=
  (Int.tdiv i b.Width + b.Y) * f.Width + (Int.tmod i b.Width + b.X)

/-- The index that `Rotate` computes for cell `i` of the block:
`j = x*b.Height + ((b.Height - 1) - y)`. -/
def rotIndex (b : Block) (i : Nat) : Int :=
  Int.tmod i b.Width * b.Height + ((b.Height - 1) - Int.tdiv i b.Width)

/-- The loop of `CanMove`: `n` iterations remain, the next index is `i`. -/
def Field.CanMove.loop (f : Field) (b : Block) (dx dy : Int) : Nat → Nat → Option Bool
  | 0, _ => some true
  | n + 1, i =>
    if b.Width = 0 then none
    else
      let x := Int.tmod i b.Width + b.X + dx
      let y := Int.tdiv i b.Width + b.Y + dy
      match b.Matrix[i]? with
      | none => none
      | some c =>
        if c = 0 then Field.CanMove.loop f b dx dy n (i + 1)
        else if x < 0 ∨ y < 0 ∨ x ≥ f.Width ∨ y ≥ f.Height then some false
        else
          let targeti := y * f.Width + x
          match readAt f.Matrix targeti with
          | none => none
          | some t =>
            if t ≠ 0 ∧ c ≠ 0 then some false
            else Field.CanMove.loop f b dx dy n (i + 1)

/-- `Field.CanMove`. -/
def Field.CanMove (f : Field) (b : Block) (dx dy : Int) : Option Bool :=
  Field.CanMove.loop f b dx dy b.Matrix.length 0

/-- `Rotate` applied `n` times in a row. -/
def rotateTimes : Nat → Block → Option Block
  | 0, b => some b
  | n + 1, b =>
    match b.Rotate with
    | none => none
    | some b' => rotateTimes n b'

/-- The grid invariant together with what keeps it: the field is `w` x `h`
with `w * h` cells, and the cells of field and block are 0 or a colour code
in 1..7. -/
def GameState.gridOK (w h : Int) (gs : GameState) : Prop :=
  gs.Field.Width = w ∧ gs.Field.Height = h ∧
  (gs.Field.Matrix.length : Int) = w * h ∧
  (∀ a ∈ gs.Field.Matrix, 0 ≤ a ∧ a ≤ 7) ∧
  (∀ a ∈ gs.Block.Matrix, 0 ≤ a ∧ a ≤ 7)

/-- The non-zero cells of a block as (column, row) pairs inside its bounding
box. -/
def Block.cells (b : Block) : List (Int × Int) :=
  (List.range b.Matrix.length).filterMap fun (i : Nat) =>
    match b.Matrix[i]? with
    | some c => if c ≠ 0 then some ((i : Int) % b.Width, (i : Int) / b.Width) else none
    | none => none

/-- Two cells share an edge. -/
def adjacent (p q : Int × Int) : Bool :=
  (p.1 - q.1).natAbs + (p.2 - q.2).natAbs == 1

/-- One round of growing a set of cells by the cells of `cs` next to it. -/
def growCells (cs reached : List (Int × Int)) : List (Int × Int) :=
  cs.filter fun p => reached.any fun q => p == q || adjacent p q

/-- The cells form one edge-connected piece: growing from the first cell, as
many rounds as there are cells, reaches them all. -/
def edgeConnected (cs : List (Int × Int)) : Bool :=
  match cs with
  | [] => false
  | c :: _ => cs.all fun p => (Nat.iterate (growCells cs) cs.length [c]).contains p

/-- A quarter turn of a set of cells about the origin. -/
def turnCells (cs : List (Int × Int)) : List (Int × Int) :=
  cs.map fun p => (-p.2, p.1)

/-- Translate a set of cells so that its least column and least row are 0. -/
def normalizeCells (cs : List (Int × Int)) : List (Int × Int) :=
  match cs with
  | [] => []
  | c :: rest =>
    let mx := rest.foldl (fun acc p => min acc p.1) c.1
    let my := rest.foldl (fun acc p => min acc p.2) c.2
    cs.map fun p => (p.1 - mx, p.2 - my)

/-- The two lists hold the same cells. -/
def sameCells (a b : List (Int × Int)) : Bool :=
  (a.all fun p => b.contains p) && (b.all fun p => a.contains p)

/-- Two blocks have the same shape up to rotation and translation. -/
def sameShape (a b : Block) : Bool :=
  (List.range 4).any fun k =>
    sameCells (normalizeCells a.cells) (normalizeCells (Nat.iterate turnCells k b.cells))

/-- The index of the lowest row of the bounding box that holds a non-zero
cell (rows are counted downwards from 0); -1 for a block without cells. -/
def Block.lowestRow (b : Block) : Int :=
  b.cells.foldl (fun acc p => max acc p.2) (-1)

/-- Every call of the sequence is `Nudge(1, true)`, with whatever draw. -/
def allNudgeDown (ops : List Op) : Prop :=
  ∀ op ∈ ops, ∃ d, op = Op.nudge 1 true d

/-! ## Slice lemmas -/

theorem readAt_natCast (m : List Int) (k : Nat) : readAt m (k : Int) = m[k]? := by
  unfold readAt
  have h : ¬ ((k : Int) < 0) := by omega
  simp [h]

theorem readAt_isSome_of_lt (m : List Int) (i : Int) (h0 : 0 ≤ i) (h1 : i < (m.length : Int)) :
    ∃ v, readAt m i = some v := by
  unfold readAt
  have h : ¬ (i < 0) := by omega
  have h2 : i.toNat < m.length := by omega
  simp only [h, if_false]
  exact ⟨m[i.toNat], List.getElem?_eq_getElem h2⟩

theorem writeAt_isSome_of_lt (m : List Int) (i v : Int) (h0 : 0 ≤ i) (h1 : i < (m.length : Int)) :
    writeAt m i v = some (m.set i.toNat v) := by
  unfold writeAt
  have h : ¬ (i < 0) := by omega
  have h2 : i.toNat < m.length := by omega
  simp [h, h2]

theorem writeAt_eq_some (m m' : List Int) (i v : Int) (h : writeAt m i v = some m') :
    0 ≤ i ∧ i < (m.length : Int) ∧ m' = m.set i.toNat v := by
  unfold writeAt at h
  by_cases h0 : i < 0
  · simp [h0] at h
  · by_cases h1 : i.toNat < m.length
    · simp [h0, h1] at h
      exact ⟨by omega, by omega, h.symm⟩
    · simp [h0, h1] at h

/-- Row-major indices of in-range coordinates are in range. -/
theorem index_in_range (w h x y : Int) (hx0 : 0 ≤ x) (hx : x < w) (hy0 : 0 ≤ y) (hy : y < h) :
    0 ≤ y * w + x ∧ y * w + x < w * h := by
  constructor
  · have : 0 ≤ y * w := mul_nonneg hy0 (by omega)
    omega
  · have h1 : y * w ≤ (h - 1) * w := mul_le_mul_of_nonneg_right (by omega) (by omega)
    have h2 : (h - 1) * w = w * h - w := by ring
    omega

/-! ## CanPlace -/

theorem canPlace_loop_true (f : Field) (b : Block) (hW : b.Width ≠ 0) :
    ∀ (n i : Nat), i + n ≤ b.Matrix.length →
      (Field.CanPlace.loop f b n i = some true ↔ ∀ k, i ≤ k → k < i + n → cellFree f b k) := by
  intro n
  induction n with
  | zero =>
    intro i _
    simp only [Field.CanPlace.loop, true_iff]
    intro k h1 h2
    omega
  | succ n ih =>
    intro i hi
    have hlt : i < b.Matrix.length := by omega
    have ih' := ih (i + 1) (by omega)
    have hget : b.Matrix[i]? = some b.Matrix[i] := List.getElem?_eq_getElem hlt
    have key : ∀ P : Prop, (P ↔ cellFree f b i ∧ ∀ k, i + 1 ≤ k → k < i + 1 + n → cellFree f b k) →
        (P ↔ ∀ k, i ≤ k → k < i + (n + 1) → cellFree f b k) := by
      intro P hP
      rw [hP]
      constructor
      · rintro ⟨h0, hr⟩ k hk1 hk2
        by_cases hk : k = i
        · subst hk; exact h0
        · exact hr k (by omega) (by omega)
      · intro h
        exact ⟨h i (le_refl _) (by omega), fun k hk1 hk2 => h k (by omega) (by omega)⟩
    apply key
    unfold Field.CanPlace.loop
    simp only [hW, if_false, hget]
    by_cases hc : b.Matrix[i] = 0
    · simp only [hc, if_true]
      rw [ih']
      constructor
      · intro h
        refine ⟨?_, h⟩
        intro c hc1 hc2
        rw [hget] at hc1
        simp only [Option.some.injEq] at hc1
        exact absurd (hc1 ▸ hc) hc2
      · exact fun h => h.2
    · simp only [hc, if_false]
      by_cases hb : Int.tmod i b.Width + b.X < 0 ∨ Int.tdiv i b.Width + b.Y < 0 ∨
          Int.tmod i b.Width + b.X ≥ f.Width ∨ Int.tdiv i b.Width + b.Y ≥ f.Height
      · simp only [hb, if_true]
        constructor
        · intro h; simp at h
        · rintro ⟨h0, _⟩
          have := h0 _ hget hc
          omega
      · simp only [hb, if_false]
        cases hr : readAt f.Matrix ((Int.tdiv i b.Width + b.Y) * f.Width + (Int.tmod i b.Width + b.X)) with
        | none =>
          simp only []
          constructor
          · intro h; simp at h
          · rintro ⟨h0, _⟩
            have := (h0 _ hget hc).2.2.2.2
            rw [hr] at this
            simp at this
        | some t =>
          simp only []
          by_cases ht : t = 0
          · subst ht
            simp only [ne_eq, not_true_eq_false, false_and, if_false]
            rw [ih']
            constructor
            · intro h
              refine ⟨?_, h⟩
              intro c hc1 hc2
              refine ⟨by omega, by omega, by omega, by omega, hr⟩
            · exact fun h => h.2
          · simp only [ne_eq, ht, not_false_eq_true, hc, and_self, if_true]
            constructor
            · intro h; simp at h
            · rintro ⟨h0, _⟩
              have := (h0 _ hget hc).2.2.2.2
              rw [hr] at this
              simp only [Option.some.injEq] at this
              exact absurd this ht

theorem canPlace_loop_total (f : Field) (b : Block) (hW : b.Width ≠ 0)
    (hlen : (f.Matrix.length : Int) = f.Width * f.Height) :
    ∀ (n i : Nat), i + n ≤ b.Matrix.length →
      Field.CanPlace.loop f b n i = some true ∨ Field.CanPlace.loop f b n i = some false := by
  intro n
  induction n with
  | zero => intro i _; left; rfl
  | succ n ih =>
    intro i hi
    have hlt : i < b.Matrix.length := by omega
    have ih' := ih (i + 1) (by omega)
    have hget : b.Matrix[i]? = some b.Matrix[i] := List.getElem?_eq_getElem hlt
    unfold Field.CanPlace.loop
    simp only [hW, if_false, hget]
    by_cases hc : b.Matrix[i] = 0
    · simp only [hc, if_true]; exact ih'
    · simp only [hc, if_false]
      by_cases hb : Int.tmod i b.Width + b.X < 0 ∨ Int.tdiv i b.Width + b.Y < 0 ∨
          Int.tmod i b.Width + b.X ≥ f.Width ∨ Int.tdiv i b.Width + b.Y ≥ f.Height
      · simp only [hb, if_true]; right; trivial
      · simp only [hb, if_false]
        have hr := index_in_range f.Width f.Height (Int.tmod i b.Width + b.X)
          (Int.tdiv i b.Width + b.Y) (by omega) (by omega) (by omega) (by omega)
        obtain ⟨t, ht⟩ := readAt_isSome_of_lt f.Matrix _ hr.1 (by rw [hlen]; exact hr.2)
        simp only [ht]
        split
        · right; rfl
        · exact ih'

/-- C1. For a field whose matrix has `Width * Height` cells and a block of
positive width, `CanPlace` returns (it does not panic), and it returns true
exactly when every non-zero cell `i` of the block maps to a coordinate
`(X + i mod Width, Y + i div Width)` inside the grid whose field cell is 0.
Zero cells of the block are not tested. -/
theorem CanPlace_iff (f : Field) (b : Block)
    (hlen : (f.Matrix.length : Int) = f.Width * f.Height) (hbW : 0 < b.Width) :
    (f.CanPlace b = some true ∨ f.CanPlace b = some false) ∧
    (f.CanPlace b = some true ↔
      ∀ (i : Nat) (c : Int), b.Matrix[i]? = some c → c ≠ 0 →
        0 ≤ b.X + (i : Int) % b.Width ∧ b.X + (i : Int) % b.Width < f.Width ∧
        0 ≤ b.Y + (i : Int) / b.Width ∧ b.Y + (i : Int) / b.Width < f.Height ∧
        readAt f.Matrix ((b.Y + (i : Int) / b.Width) * f.Width + (b.X + (i : Int) % b.Width))
          = some 0) := by
  have hW : b.Width ≠ 0 := by omega
  have hmod : ∀ i : Nat, Int.tmod i b.Width = (i : Int) % b.Width :=
    fun i => Int.tmod_eq_emod (Int.ofNat_nonneg i) (le_of_lt hbW)
  have hdiv : ∀ i : Nat, Int.tdiv i b.Width = (i : Int) / b.Width :=
    fun i => Int.tdiv_eq_ediv (Int.ofNat_nonneg i) (le_of_lt hbW)
  refine ⟨canPlace_loop_total f b hW hlen b.Matrix.length 0 (by omega), ?_⟩
  unfold Field.CanPlace
  rw [canPlace_loop_true f b hW b.Matrix.length 0 (by omega)]
  constructor
  · intro h i c hc hc0
    have hi : i < b.Matrix.length := by
      by_contra hcon
      rw [List.getElem?_eq_none (by omega)] at hc
      simp at hc
    have := h i (Nat.zero_le _) (by omega) c hc hc0
    rw [hmod, hdiv] at this
    rw [add_comm b.X, add_comm b.Y]
    exact this
  · intro h k _ _ c hc hc0
    have := h k c hc hc0
    rw [add_comm b.X, add_comm b.Y] at this
    rw [hmod, hdiv]
    exact this

/-- C1, at a 3 x 2 field with one occupied cell and the square block. -/
theorem CanPlace_iff_witness :
    ((([0, 0, 0, 0, 0, 7] : List Int).length : Int) = 3 * 2 ∧ (0 : Int) < 2) ∧
    ((Field.CanPlace ⟨3, 2, [0, 0, 0, 0, 0, 7]⟩ ⟨2, 2, 0, 0, [2, 2, 2, 2]⟩ = some true ∨
      Field.CanPlace ⟨3, 2, [0, 0, 0, 0, 0, 7]⟩ ⟨2, 2, 0, 0, [2, 2, 2, 2]⟩ = some false) ∧
    (Field.CanPlace ⟨3, 2, [0, 0, 0, 0, 0, 7]⟩ ⟨2, 2, 0, 0, [2, 2, 2, 2]⟩ = some true ↔
      ∀ (i : Nat) (c : Int), ([2, 2, 2, 2] : List Int)[i]? = some c → c ≠ 0 →
        0 ≤ (0 : Int) + (i : Int) % 2 ∧ (0 : Int) + (i : Int) % 2 < 3 ∧
        0 ≤ (0 : Int) + (i : Int) / 2 ∧ (0 : Int) + (i : Int) / 2 < 2 ∧
        readAt [0, 0, 0, 0, 0, 7] (((0 : Int) + (i : Int) / 2) * 3 + ((0 : Int) + (i : Int) % 2))
          = some 0)) :=
  ⟨⟨by decide, by decide⟩,
    CanPlace_iff ⟨3, 2, [0, 0, 0, 0, 0, 7]⟩ ⟨2, 2, 0, 0, [2, 2, 2, 2]⟩ (by decide) (by decide)⟩

/-! ## ClearLines -/

/-- C2. `ClearLines` run on the 3 x 3 field with rows `4 4 0`, `0 0 0`,
`1 1 1`, in which exactly row 2 is complete: the claim asks for the result 1
with row 1 becoming `4 4 0`; the code returns 2 and leaves an empty field,
because its completeness test reads only the first `Width - 1` cells of a row
and so takes `4 4 0` for complete once it has moved down. -/
theorem ClearLines_one_complete_row_fails :
    (rowComplete ⟨3, 3, [4, 4, 0, 0, 0, 0, 1, 1, 1]⟩ 0 = false ∧
      rowComplete ⟨3, 3, [4, 4, 0, 0, 0, 0, 1, 1, 1]⟩ 1 = false ∧
      rowComplete ⟨3, 3, [4, 4, 0, 0, 0, 0, 1, 1, 1]⟩ 2 = true) ∧
    Field.ClearLines ⟨3, 3, [4, 4, 0, 0, 0, 0, 1, 1, 1]⟩
      = some (⟨3, 3, [0, 0, 0, 0, 0, 0, 0, 0, 0]⟩, 2) := by
  decide

/-- C3. `ClearLines` run on the 3 x 3 field with rows `0 0 0`, `1 1 1`,
`2 2 2`, whose bottom K = 2 rows and no others are complete: the claim asks
for the result 2 and two empty rows at the top; the code returns 1 and leaves
`1 1 1` on the bottom row, because after a shift it moves on to the next row
up without testing the row that has just moved into the cleared place. -/
theorem ClearLines_bottom_rows_fails :
    (rowComplete ⟨3, 3, [0, 0, 0, 1, 1, 1, 2, 2, 2]⟩ 0 = false ∧
      rowComplete ⟨3, 3, [0, 0, 0, 1, 1, 1, 2, 2, 2]⟩ 1 = true ∧
      rowComplete ⟨3, 3, [0, 0, 0, 1, 1, 1, 2, 2, 2]⟩ 2 = true) ∧
    Field.ClearLines ⟨3, 3, [0, 0, 0, 1, 1, 1, 2, 2, 2]⟩
      = some (⟨3, 3, [0, 0, 0, 0, 0, 0, 1, 1, 1]⟩, 1) := by
  decide

/-- C4. `ClearLines` run on the 3 x 2 field with rows `0 0 0`, `4 4 0`, in
which no row is complete: the claim asks for the result 0 and an unchanged
field; the code returns 1 and erases the bottom row, because its completeness
test reads only the first `Width - 1` cells of a row. -/
theorem ClearLines_no_complete_row_fails :
    (rowComplete ⟨3, 2, [0, 0, 0, 4, 4, 0]⟩ 0 = false ∧
      rowComplete ⟨3, 2, [0, 0, 0, 4, 4, 0]⟩ 1 = false) ∧
    Field.ClearLines ⟨3, 2, [0, 0, 0, 4, 4, 0]⟩
      = some (⟨3, 2, [0, 0, 0, 0, 0, 0]⟩, 1) := by
  decide

/-! ## Nudge -/

/-- C5. If the translated copy of the current block is placeable, `Nudge`
returns with exactly that copy as the current block: the same matrix, width
and height, the moved coordinate increased by `delta`, the other coordinate
unchanged; the field and `LinesCleared` are unchanged. -/
theorem Nudge_accepted (gs : GameState) (delta : Int) (vertical : Bool) (draw : Nat)
    (h : gs.Field.CanPlace (gs.nudged delta vertical) = some true) :
    ∃ gs', gs.Nudge delta vertical draw = some gs' ∧
      gs'.Block = gs.nudged delta vertical ∧
      gs'.Block.Matrix = gs.Block.Matrix ∧
      gs'.Block.Width = gs.Block.Width ∧
      gs'.Block.Height = gs.Block.Height ∧
      (vertical = false → gs'.Block.X = gs.Block.X + delta ∧ gs'.Block.Y = gs.Block.Y) ∧
      (vertical = true → gs'.Block.Y = gs.Block.Y + delta ∧ gs'.Block.X = gs.Block.X) ∧
      gs'.Field = gs.Field ∧
      gs'.LinesCleared = gs.LinesCleared := by
  refine ⟨{ gs with Block := gs.nudged delta vertical }, ?_, rfl, ?_⟩
  · unfold GameState.Nudge
    simp only [h]
  · cases vertical <;> simp [GameState.nudged, Block.Copy]

/-- C5, at a 4 x 4 empty field with the square block at (1, 0), moved down by 1. -/
theorem Nudge_accepted_witness :
    Field.CanPlace ⟨4, 4, List.replicate 16 0⟩
        (GameState.nudged ⟨⟨4, 4, List.replicate 16 0⟩, ⟨2, 2, 1, 0, [2, 2, 2, 2]⟩, 0⟩ 1 true)
      = some true ∧
    ∃ gs', GameState.Nudge ⟨⟨4, 4, List.replicate 16 0⟩, ⟨2, 2, 1, 0, [2, 2, 2, 2]⟩, 0⟩ 1 true 0
        = some gs' ∧
      gs'.Block = GameState.nudged ⟨⟨4, 4, List.replicate 16 0⟩, ⟨2, 2, 1, 0, [2, 2, 2, 2]⟩, 0⟩ 1 true ∧
      gs'.Block.Matrix = [2, 2, 2, 2] ∧
      gs'.Block.Width = 2 ∧
      gs'.Block.Height = 2 ∧
      (true = false → gs'.Block.X = 1 + 1 ∧ gs'.Block.Y = 0) ∧
      (true = true → gs'.Block.Y = 0 + 1 ∧ gs'.Block.X = 1) ∧
      gs'.Field = ⟨4, 4, List.replicate 16 0⟩ ∧
      gs'.LinesCleared = 0 :=
  ⟨by decide,
    Nudge_accepted ⟨⟨4, 4, List.replicate 16 0⟩, ⟨2, 2, 1, 0, [2, 2, 2, 2]⟩, 0⟩ 1 true 0 (by decide)⟩

/-- C7. A `Nudge` whose translated copy is not placeable and which is not a
downward vertical nudge (`vertical` false, or `delta <= 0`) returns the game
state it was given: field, block and `LinesCleared` are all unchanged. -/
theorem Nudge_rejected_noop (gs : GameState) (delta : Int) (vertical : Bool) (draw : Nat)
    (h : gs.Field.CanPlace (gs.nudged delta vertical) = some false)
    (hdir : vertical = false ∨ delta ≤ 0) :
    gs.Nudge delta vertical draw = some gs := by
  unfold GameState.Nudge
  have hn : ¬ (vertical = true ∧ delta > 0) := by
    rintro ⟨hv, hd⟩
    rcases hdir with h1 | h1
    · rw [hv] at h1; exact Bool.noConfusion h1
    · omega
  simp only [h, hn, if_false]

/-- C7, at a 4 x 4 empty field with the square block at (0, 0), moved left by 1. -/
theorem Nudge_rejected_noop_witness :
    (Field.CanPlace ⟨4, 4, List.replicate 16 0⟩
        (GameState.nudged ⟨⟨4, 4, List.replicate 16 0⟩, ⟨2, 2, 0, 0, [2, 2, 2, 2]⟩, 0⟩ (-1) false)
      = some false ∧ (false = false ∨ (-1 : Int) ≤ 0)) ∧
    GameState.Nudge ⟨⟨4, 4, List.replicate 16 0⟩, ⟨2, 2, 0, 0, [2, 2, 2, 2]⟩, 0⟩ (-1) false 0
      = some ⟨⟨4, 4, List.replicate 16 0⟩, ⟨2, 2, 0, 0, [2, 2, 2, 2]⟩, 0⟩ :=
  ⟨⟨by decide, by decide⟩,
    Nudge_rejected_noop ⟨⟨4, 4, List.replicate 16 0⟩, ⟨2, 2, 0, 0, [2, 2, 2, 2]⟩, 0⟩ (-1) false 0
      (by decide) (by decide)⟩

/-! ## DrawBlock -/

theorem readAt_writeAt (m m' : List Int) (j v p : Int) (h : writeAt m j v = some m') :
    readAt m' p = if p = j then some v else readAt m p := by
  obtain ⟨h0, h1, rfl⟩ := writeAt_eq_some m m' j v h
  unfold readAt
  by_cases hp : p < 0
  · have : p ≠ j := by omega
    simp [hp, this]
  · simp only [hp, if_false]
    by_cases hpj : p = j
    · subst hpj
      simp only [if_true]
      rw [List.getElem?_set]
      have : p.toNat < m.length := by omega
      simp [this]
    · simp only [hpj, if_false]
      rw [List.getElem?_set_ne]
      omega

theorem readAt_eq_some_bounds (m : List Int) (i v : Int) (h : readAt m i = some v) :
    0 ≤ i ∧ i < (m.length : Int) := by
  unfold readAt at h
  by_cases h0 : i < 0
  · simp [h0] at h
  · simp only [h0, if_false] at h
    have : i.toNat < m.length := by
      by_contra hcon
      rw [List.getElem?_eq_none (by omega)] at h
      simp at h
    omega

/-- The `DrawBlock` loop keeps the length and every cell that is not a target
of a non-zero block cell among the remaining ones. -/
theorem drawBlock_loop_frame (f : Field) (b : Block) :
    ∀ (n i : Nat) (m m' : List Int), Field.DrawBlock.loop f b n i m = some m' →
      m'.length = m.length ∧
      ∀ p : Int, (∀ k, i ≤ k → k < i + n → ∀ c, b.Matrix[k]? = some c → c ≠ 0 →
          target f b k ≠ p) → readAt m' p = readAt m p := by
  intro n
  induction n with
  | zero =>
    intro i m m' h
    simp only [Field.DrawBlock.loop, Option.some.injEq] at h
    subst h
    exact ⟨rfl, fun _ _ => rfl⟩
  | succ n ih =>
    intro i m m' h
    unfold Field.DrawBlock.loop at h
    by_cases hW : b.Width = 0
    · simp [hW] at h
    · simp only [hW, if_false] at h
      cases hg : b.Matrix[i]? with
      | none => simp [hg] at h
      | some c =>
        simp only [hg] at h
        by_cases hc : c = 0
        · simp only [hc, ne_eq, not_true_eq_false, if_false] at h
          obtain ⟨hl, hf⟩ := ih (i + 1) m m' h
          exact ⟨hl, fun p hp => hf p (fun k hk1 hk2 => hp k (by omega) (by omega))⟩
        · simp only [ne_eq, hc, not_false_eq_true, if_true] at h
          cases hw : writeAt m ((Int.tdiv i b.Width + b.Y) * f.Width +
              (Int.tmod i b.Width + b.X)) c with
          | none => simp [hw] at h
          | some m1 =>
            simp only [hw] at h
            obtain ⟨hl, hf⟩ := ih (i + 1) m1 m' h
            obtain ⟨_, _, hm1⟩ := writeAt_eq_some _ _ _ _ hw
            refine ⟨by rw [hl, hm1, List.length_set], fun p hp => ?_⟩
            rw [hf p (fun k hk1 hk2 => hp k (by omega) (by omega)), readAt_writeAt _ _ _ _ p hw]
            have hne : p ≠ (Int.tdiv i b.Width + b.Y) * f.Width + (Int.tmod i b.Width + b.X) :=
              fun heq => hp i (le_refl _) (by omega) c hg hc heq.symm
            simp only [hne, if_false]

/-- The `DrawBlock` loop leaves the colour of a non-zero block cell on its
target, unless a later non-zero cell has the same target. -/
theorem drawBlock_loop_written (f : Field) (b : Block) :
    ∀ (n i : Nat) (m m' : List Int), Field.DrawBlock.loop f b n i m = some m' →
      ∀ k, i ≤ k → k < i + n → ∀ c, b.Matrix[k]? = some c → c ≠ 0 →
        (∀ k', k < k' → k' < i + n → ∀ c', b.Matrix[k']? = some c' → c' ≠ 0 →
          target f b k' ≠ target f b k) →
        readAt m' (target f b k) = some c := by
  intro n
  induction n with
  | zero => intro i m m' _ k h1 h2; omega
  | succ n ih =>
    intro i m m' h k hk1 hk2 c hkc hc0 hinj
    unfold Field.DrawBlock.loop at h
    by_cases hW : b.Width = 0
    · simp [hW] at h
    · simp only [hW, if_false] at h
      cases hg : b.Matrix[i]? with
      | none => simp [hg] at h
      | some ci =>
        simp only [hg] at h
        by_cases hki : k = i
        · subst hki
          rw [hg] at hkc
          simp only [Option.some.injEq] at hkc
          subst hkc
          simp only [ne_eq, hc0, not_false_eq_true, if_true] at h
          cases hw : writeAt m ((Int.tdiv k b.Width + b.Y) * f.Width +
              (Int.tmod k b.Width + b.X)) ci with
          | none => simp [hw] at h
          | some m1 =>
            simp only [hw] at h
            obtain ⟨_, hf⟩ := drawBlock_loop_frame f b n (k + 1) m1 m' h
            rw [hf (target f b k) (fun k' hk1' hk2' c' hc' hc0' =>
              hinj k' (by omega) (by omega) c' hc' hc0')]
            rw [readAt_writeAt _ _ _ _ _ hw]
            simp [target]
        · have hrest : ∀ m1, Field.DrawBlock.loop f b n (i + 1) m1 = some m' →
              readAt m' (target f b k) = some c := fun m1 h1 =>
            ih (i + 1) m1 m' h1 k (by omega) (by omega) c hkc hc0
              (fun k' hk1' hk2' => hinj k' hk1' (by omega))
          by_cases hc : ci = 0
          · simp only [hc, ne_eq, not_true_eq_false, if_false] at h
            exact hrest m h
          · simp only [ne_eq, hc, not_false_eq_true, if_true] at h
            cases hw : writeAt m ((Int.tdiv i b.Width + b.Y) * f.Width +
                (Int.tmod i b.Width + b.X)) ci with
            | none => simp [hw] at h
            | some m1 =>
              simp only [hw] at h
              exact hrest m1 h

/-- The `DrawBlock` loop does not panic when every non-zero cell that remains
has its target inside the matrix. -/
theorem drawBlock_loop_total (f : Field) (b : Block) (hW : b.Width ≠ 0) :
    ∀ (n i : Nat) (m : List Int), i + n ≤ b.Matrix.length →
      (∀ k, i ≤ k → k < i + n → ∀ c, b.Matrix[k]? = some c → c ≠ 0 →
        0 ≤ target f b k ∧ target f b k < (m.length : Int)) →
      ∃ m', Field.DrawBlock.loop f b n i m = some m' := by
  intro n
  induction n with
  | zero => intro i m _ _; exact ⟨m, rfl⟩
  | succ n ih =>
    intro i m hi hin
    have hlt : i < b.Matrix.length := by omega
    have hget : b.Matrix[i]? = some b.Matrix[i] := List.getElem?_eq_getElem hlt
    unfold Field.DrawBlock.loop
    simp only [hW, if_false, hget]
    by_cases hc : b.Matrix[i] = 0
    · simp only [hc, ne_eq, not_true_eq_false, if_false]
      exact ih (i + 1) m (by omega) (fun k hk1 hk2 => hin k (by omega) (by omega))
    · simp only [ne_eq, hc, not_false_eq_true, if_true]
      have hb := hin i (le_refl _) (by omega) _ hget hc
      unfold target at hb
      rw [writeAt_isSome_of_lt m _ _ hb.1 hb.2]
      simp only []
      apply ih (i + 1) _ (by omega)
      intro k hk1 hk2 c hkc hc0
      rw [List.length_set]
      exact hin k (by omega) (by omega) c hkc hc0

/-- Two block cells whose coordinates are both inside the grid columns and
whose targets agree are the same cell. -/
theorem target_inj (f : Field) (b : Block) (k k' : Nat)
    (hk0 : 0 ≤ Int.tmod k b.Width + b.X) (hk1 : Int.tmod k b.Width + b.X < f.Width)
    (hk0' : 0 ≤ Int.tmod k' b.Width + b.X) (hk1' : Int.tmod k' b.Width + b.X < f.Width)
    (h : target f b k = target f b k') : k = k' := by
  unfold target at h
  have hx : Int.tmod k b.Width + b.X = Int.tmod k' b.Width + b.X := by
    have e1 : ((Int.tdiv k b.Width + b.Y) * f.Width + (Int.tmod k b.Width + b.X)) % f.Width
        = Int.tmod k b.Width + b.X := by
      rw [add_comm, Int.add_mul_emod_self, Int.emod_eq_of_lt hk0 hk1]
    have e2 : ((Int.tdiv k' b.Width + b.Y) * f.Width + (Int.tmod k' b.Width + b.X)) % f.Width
        = Int.tmod k' b.Width + b.X := by
      rw [add_comm, Int.add_mul_emod_self, Int.emod_eq_of_lt hk0' hk1']
    rw [← e1, ← e2, h]
  have hy : Int.tdiv k b.Width + b.Y = Int.tdiv k' b.Width + b.Y := by
    have hw : f.Width ≠ 0 := by omega
    have : (Int.tdiv k b.Width + b.Y) * f.Width = (Int.tdiv k' b.Width + b.Y) * f.Width := by
      omega
    exact mul_right_cancel₀ hw this
  have e := Int.tdiv_add_tmod (k : Int) b.Width
  have e' := Int.tdiv_add_tmod (k' : Int) b.Width
  have h1 : Int.tmod k b.Width = Int.tmod k' b.Width := by omega
  have h2 : Int.tdiv k b.Width = Int.tdiv k' b.Width := by omega
  rw [h1, h2] at e
  have : (k : Int) = (k' : Int) := e.symm.trans e'
  exact_mod_cast this

theorem Block.Copy_eq (b : Block) : b.Copy = b := by
  cases b; rfl

/-- From a successful `CanPlace`: the width is non-zero unless the matrix is
empty, and every cell passes the test of the loop body. -/
theorem cellFree_of_canPlace (f : Field) (b : Block) (hp : f.CanPlace b = some true) :
    (b.Matrix.length ≠ 0 → b.Width ≠ 0) ∧ ∀ k, cellFree f b k := by
  have hW : b.Matrix.length ≠ 0 → b.Width ≠ 0 := by
    intro hl hW
    unfold Field.CanPlace at hp
    obtain ⟨n, hn⟩ := Nat.exists_eq_succ_of_ne_zero hl
    rw [hn] at hp
    unfold Field.CanPlace.loop at hp
    simp [hW] at hp
  refine ⟨hW, fun k => ?_⟩
  by_cases hk : k < b.Matrix.length
  · unfold Field.CanPlace at hp
    exact (canPlace_loop_true f b (hW (by omega)) b.Matrix.length 0 (by omega)).1 hp k
      (Nat.zero_le _) (by omega)
  · intro c hc
    rw [List.getElem?_eq_none (by omega)] at hc
    simp at hc

/-- `DrawBlock` of a placeable block: it does not panic, keeps the dimensions,
writes the colour of every non-zero block cell on its target and leaves every
other cell as it was. -/
theorem drawBlock_of_canPlace (f : Field) (b : Block) (hp : f.CanPlace b = some true) :
    ∃ f', f.DrawBlock b = some f' ∧ f'.Width = f.Width ∧ f'.Height = f.Height ∧
      f'.Matrix.length = f.Matrix.length ∧
      (∀ i c, b.Matrix[i]? = some c → c ≠ 0 → readAt f'.Matrix (target f b i) = some c) ∧
      (∀ p, (∀ i c, b.Matrix[i]? = some c → c ≠ 0 → target f b i ≠ p) →
        readAt f'.Matrix p = readAt f.Matrix p) := by
  obtain ⟨hW, hfree⟩ := cellFree_of_canPlace f b hp
  have hex : ∃ m', Field.DrawBlock.loop f b b.Matrix.length 0 f.Matrix = some m' := by
    by_cases hl : b.Matrix.length = 0
    · rw [hl]; exact ⟨_, rfl⟩
    · apply drawBlock_loop_total f b (hW hl) b.Matrix.length 0 f.Matrix (by omega)
      intro k _ _ c hkc hc0
      exact readAt_eq_some_bounds _ _ _ (hfree k c hkc hc0).2.2.2.2
  obtain ⟨m', hm'⟩ := hex
  obtain ⟨hlen, hframe⟩ := drawBlock_loop_frame f b _ _ _ _ hm'
  have hidx : ∀ i c, b.Matrix[i]? = some c → i < b.Matrix.length := by
    intro i c hc
    by_contra hcon
    rw [List.getElem?_eq_none (by omega)] at hc
    simp at hc
  refine ⟨{ f with Matrix := m' }, ?_, rfl, rfl, hlen, ?_, ?_⟩
  · unfold Field.DrawBlock
    simp only [hm']
  · intro i c hic hc0
    have hi := hidx i c hic
    apply drawBlock_loop_written f b _ _ _ _ hm' i (Nat.zero_le _) (by omega) c hic hc0
    intro k' hk1 _ c' hkc' hc0' heq
    have hA := hfree i c hic hc0
    have hB := hfree k' c' hkc' hc0'
    have := target_inj f b k' i hB.1 hB.2.1 hA.1 hA.2.1 heq
    omega
  · intro p hp'
    exact hframe p (fun k _ _ c hkc hc0 => hp' k c hkc hc0)

/-- C6. When the current block is placeable and the block moved down by
`delta > 0` is not, `Nudge(delta, true)` returns with: a field of the same
dimensions in which every non-zero cell of the block, at its position before
the move, holds that cell's colour and every other cell is as before; the
freshly spawned, centred shape as the current block; `LinesCleared`
unchanged. -/
theorem Nudge_lock (gs : GameState) (delta : Int) (draw : Nat)
    (hp : gs.Field.CanPlace gs.Block = some true) (hd : 0 < delta)
    (hn : gs.Field.CanPlace (gs.nudged delta true) = some false) :
    ∃ gs', gs.Nudge delta true draw = some gs' ∧
      gs'.Field.Width = gs.Field.Width ∧ gs'.Field.Height = gs.Field.Height ∧
      gs'.Field.Matrix.length = gs.Field.Matrix.length ∧
      (∀ i c, gs.Block.Matrix[i]? = some c → c ≠ 0 →
        readAt gs'.Field.Matrix (target gs.Field gs.Block i) = some c) ∧
      (∀ p, (∀ i c, gs.Block.Matrix[i]? = some c → c ≠ 0 → target gs.Field gs.Block i ≠ p) →
        readAt gs'.Field.Matrix p = readAt gs.Field.Matrix p) ∧
      gs'.Block = { NewBlock draw with
        X := Int.tdiv gs.Field.Width 2 - Int.tdiv (NewBlock draw).Width 2 } ∧
      gs'.LinesCleared = gs.LinesCleared := by
  obtain ⟨f', hdraw, hw, hh, hlen, hwr, hfr⟩ := drawBlock_of_canPlace gs.Field gs.Block hp
  refine ⟨GameState.centerBlock { gs with Field := f', Block := NewBlock draw }, ?_, hw, hh,
    hlen, hwr, hfr, ?_, rfl⟩
  · unfold GameState.Nudge
    have hc : (true = true ∧ delta > 0) := ⟨rfl, hd⟩
    simp only [hn, hc, if_true, Block.Copy_eq, hdraw, and_self]
  · simp only [GameState.centerBlock, hw]

/-- C6, at a 4 x 4 empty field with the square block resting on the floor. -/
theorem Nudge_lock_witness :
    (Field.CanPlace ⟨4, 4, List.replicate 16 0⟩ ⟨2, 2, 1, 2, [2, 2, 2, 2]⟩ = some true ∧
      (0 : Int) < 1 ∧
      Field.CanPlace ⟨4, 4, List.replicate 16 0⟩
        (GameState.nudged ⟨⟨4, 4, List.replicate 16 0⟩, ⟨2, 2, 1, 2, [2, 2, 2, 2]⟩, 0⟩ 1 true)
        = some false) ∧
    ∃ gs', GameState.Nudge ⟨⟨4, 4, List.replicate 16 0⟩, ⟨2, 2, 1, 2, [2, 2, 2, 2]⟩, 0⟩ 1 true 4
        = some gs' ∧
      gs'.Field.Width = 4 ∧ gs'.Field.Height = 4 ∧
      gs'.Field.Matrix.length = (List.replicate 16 (0 : Int)).length ∧
      (∀ i c, ([2, 2, 2, 2] : List Int)[i]? = some c → c ≠ 0 →
        readAt gs'.Field.Matrix
          (target ⟨4, 4, List.replicate 16 0⟩ ⟨2, 2, 1, 2, [2, 2, 2, 2]⟩ i) = some c) ∧
      (∀ p, (∀ i c, ([2, 2, 2, 2] : List Int)[i]? = some c → c ≠ 0 →
          target ⟨4, 4, List.replicate 16 0⟩ ⟨2, 2, 1, 2, [2, 2, 2, 2]⟩ i ≠ p) →
        readAt gs'.Field.Matrix p = readAt (List.replicate 16 0) p) ∧
      gs'.Block = { NewBlock 4 with X := Int.tdiv 4 2 - Int.tdiv (NewBlock 4).Width 2 } ∧
      gs'.LinesCleared = 0 :=
  ⟨⟨by decide, by decide, by decide⟩,
    Nudge_lock ⟨⟨4, 4, List.replicate 16 0⟩, ⟨2, 2, 1, 2, [2, 2, 2, 2]⟩, 0⟩ 1 4
      (by decide) (by decide) (by decide)⟩

/-! ## Rotate -/

/-- The `Rotate` loop keeps the length and every cell that is not the image of
one of the remaining indices. -/
theorem rotate_loop_frame (b : Block) (matrix : List Int) :
    ∀ (n i : Nat) (m m' : List Int), Block.Rotate.loop b matrix n i m = some m' →
      m'.length = m.length ∧
      ∀ p : Int, (∀ k, i ≤ k → k < i + n → rotIndex b k ≠ p) → readAt m' p = readAt m p := by
  intro n
  induction n with
  | zero =>
    intro i m m' h
    simp only [Block.Rotate.loop, Option.some.injEq] at h
    subst h
    exact ⟨rfl, fun _ _ => rfl⟩
  | succ n ih =>
    intro i m m' h
    unfold Block.Rotate.loop at h
    by_cases hW : b.Width = 0
    · simp [hW] at h
    · simp only [hW, if_false] at h
      cases hg : matrix[i]? with
      | none => simp [hg] at h
      | some v =>
        simp only [hg] at h
        cases hw : writeAt m (Int.tmod i b.Width * b.Height +
            ((b.Height - 1) - Int.tdiv i b.Width)) v with
        | none => simp [hw] at h
        | some m1 =>
          simp only [hw] at h
          obtain ⟨hl, hf⟩ := ih (i + 1) m1 m' h
          obtain ⟨_, _, hm1⟩ := writeAt_eq_some _ _ _ _ hw
          refine ⟨by rw [hl, hm1, List.length_set], fun p hp => ?_⟩
          rw [hf p (fun k hk1 hk2 => hp k (by omega) (by omega)), readAt_writeAt _ _ _ _ p hw]
          have hne : p ≠ Int.tmod i b.Width * b.Height +
              ((b.Height - 1) - Int.tdiv i b.Width) :=
            fun heq => hp i (le_refl _) (by omega) heq.symm
          simp only [hne, if_false]

/-- The `Rotate` loop leaves source cell `k` on its image, unless a later
index has the same image. -/
theorem rotate_loop_written (b : Block) (matrix : List Int) :
    ∀ (n i : Nat) (m m' : List Int), Block.Rotate.loop b matrix n i m = some m' →
      ∀ k, i ≤ k → k < i + n →
        (∀ k', k < k' → k' < i + n → rotIndex b k' ≠ rotIndex b k) →
        readAt m' (rotIndex b k) = matrix[k]? := by
  intro n
  induction n with
  | zero => intro i m m' _ k h1 h2; omega
  | succ n ih =>
    intro i m m' h k hk1 hk2 hinj
    unfold Block.Rotate.loop at h
    by_cases hW : b.Width = 0
    · simp [hW] at h
    · simp only [hW, if_false] at h
      cases hg : matrix[i]? with
      | none => simp [hg] at h
      | some v =>
        simp only [hg] at h
        cases hw : writeAt m (Int.tmod i b.Width * b.Height +
            ((b.Height - 1) - Int.tdiv i b.Width)) v with
        | none => simp [hw] at h
        | some m1 =>
          simp only [hw] at h
          by_cases hki : k = i
          · subst hki
            obtain ⟨_, hf⟩ := rotate_loop_frame b matrix n (k + 1) m1 m' h
            rw [hf (rotIndex b k) (fun k' hk1' hk2' => hinj k' (by omega) (by omega))]
            rw [readAt_writeAt _ _ _ _ _ hw, hg]
            simp [rotIndex]
          · exact ih (i + 1) m1 m' h k (by omega) (by omega)
              (fun k' hk1' hk2' => hinj k' hk1' (by omega))

/-- The `Rotate` loop does not panic when every remaining image is inside the
matrix. -/
theorem rotate_loop_total (b : Block) (matrix : List Int) (hW : b.Width ≠ 0) :
    ∀ (n i : Nat) (m : List Int), i + n ≤ matrix.length →
      (∀ k, i ≤ k → k < i + n → 0 ≤ rotIndex b k ∧ rotIndex b k < (m.length : Int)) →
      ∃ m', Block.Rotate.loop b matrix n i m = some m' := by
  intro n
  induction n with
  | zero => intro i m _ _; exact ⟨m, rfl⟩
  | succ n ih =>
    intro i m hi hin
    have hlt : i < matrix.length := by omega
    have hget : matrix[i]? = some matrix[i] := List.getElem?_eq_getElem hlt
    unfold Block.Rotate.loop
    simp only [hW, if_false, hget]
    have hb := hin i (le_refl _) (by omega)
    unfold rotIndex at hb
    rw [writeAt_isSome_of_lt m _ _ hb.1 hb.2]
    simp only []
    apply ih (i + 1) _ (by omega)
    intro k hk1 hk2
    rw [List.length_set]
    exact hin k (by omega) (by omega)

/-- Column and row of index `k` of a `w` x `h` matrix. -/
theorem cell_coords (w h : Int) (k : Nat) (hw : 0 < w) (hk : (k : Int) < w * h) :
    Int.tmod k w = (k : Int) % w ∧ Int.tdiv k w = (k : Int) / w ∧
    0 ≤ (k : Int) % w ∧ (k : Int) % w < w ∧ 0 ≤ (k : Int) / w ∧ (k : Int) / w < h := by
  refine ⟨Int.tmod_eq_emod (Int.ofNat_nonneg k) (le_of_lt hw),
    Int.tdiv_eq_ediv (Int.ofNat_nonneg k) (le_of_lt hw),
    Int.emod_nonneg _ (by omega), Int.emod_lt_of_pos _ hw,
    Int.ediv_nonneg (Int.ofNat_nonneg k) (le_of_lt hw), ?_⟩
  apply Int.ediv_lt_of_lt_mul hw
  rw [mul_comm]
  exact hk

/-- The image of an index of a `Width` x `Height` block is an index of it. -/
theorem rotIndex_bounds (b : Block) (k : Nat) (hw : 0 < b.Width)
    (hk : (k : Int) < b.Width * b.Height) :
    0 ≤ rotIndex b k ∧ rotIndex b k < b.Width * b.Height := by
  obtain ⟨e1, e2, h1, h2, h3, h4⟩ := cell_coords b.Width b.Height k hw hk
  unfold rotIndex
  rw [e1, e2]
  have := index_in_range b.Height b.Width (b.Height - 1 - (k : Int) / b.Width)
    ((k : Int) % b.Width) (by omega) (by omega) h1 h2
  rw [mul_comm b.Height b.Width] at this
  exact this

/-- The index map of `Rotate` is one-to-one on the indices of the block. -/
theorem rotIndex_inj (b : Block) (k k' : Nat) (hw : 0 < b.Width)
    (hk : (k : Int) < b.Width * b.Height) (hk' : (k' : Int) < b.Width * b.Height)
    (h : rotIndex b k = rotIndex b k') : k = k' := by
  obtain ⟨e1, e2, h1, h2, h3, h4⟩ := cell_coords b.Width b.Height k hw hk
  obtain ⟨e1', e2', h1', h2', h3', h4'⟩ := cell_coords b.Width b.Height k' hw hk'
  unfold rotIndex at h
  rw [e1, e2, e1', e2'] at h
  have hy : b.Height - 1 - (k : Int) / b.Width = b.Height - 1 - (k' : Int) / b.Width := by
    have a1 : ((k : Int) % b.Width * b.Height + (b.Height - 1 - (k : Int) / b.Width)) % b.Height
        = b.Height - 1 - (k : Int) / b.Width := by
      rw [add_comm, Int.add_mul_emod_self, Int.emod_eq_of_lt (by omega) (by omega)]
    have a2 : ((k' : Int) % b.Width * b.Height + (b.Height - 1 - (k' : Int) / b.Width)) % b.Height
        = b.Height - 1 - (k' : Int) / b.Width := by
      rw [add_comm, Int.add_mul_emod_self, Int.emod_eq_of_lt (by omega) (by omega)]
    rw [← a1, ← a2, h]
  have hx : (k : Int) % b.Width = (k' : Int) % b.Width := by
    have hH : b.Height ≠ 0 := by omega
    have : (k : Int) % b.Width * b.Height = (k' : Int) % b.Width * b.Height := by omega
    exact mul_right_cancel₀ hH this
  have e := Int.emod_add_ediv (k : Int) b.Width
  have e' := Int.emod_add_ediv (k' : Int) b.Width
  have hd : (k : Int) / b.Width = (k' : Int) / b.Width := by omega
  rw [hx, hd] at e
  have : (k : Int) = (k' : Int) := e.symm.trans e'
  exact_mod_cast this

/-- `Rotate` of a block with positive width whose matrix has `Width * Height`
cells: it does not panic, only the matrix changes, the length is kept, and
source cell `k` is found at `rotIndex b k`. -/
theorem rotate_spec (b : Block) (hw : 0 < b.Width)
    (hlen : (b.Matrix.length : Int) = b.Width * b.Height) :
    ∃ b', b.Rotate = some b' ∧ b'.Width = b.Width ∧ b'.Height = b.Height ∧
      b'.X = b.X ∧ b'.Y = b.Y ∧ b'.Matrix.length = b.Matrix.length ∧
      ∀ k, k < b.Matrix.length → readAt b'.Matrix (rotIndex b k) = b.Matrix[k]? := by
  have hW : b.Width ≠ 0 := by omega
  obtain ⟨m', hm'⟩ := rotate_loop_total b b.Matrix hW b.Matrix.length 0 b.Matrix (by omega)
    (fun k _ hk => by
      rw [hlen]
      exact rotIndex_bounds b k hw (by omega))
  obtain ⟨hl, _⟩ := rotate_loop_frame b b.Matrix _ _ _ _ hm'
  refine ⟨{ b with Matrix := m' }, ?_, rfl, rfl, rfl, rfl, hl, ?_⟩
  · unfold Block.Rotate
    simp only [hm']
  · intro k hk
    apply rotate_loop_written b b.Matrix _ _ _ _ hm' k (Nat.zero_le _) (by omega)
    intro k' hk1 hk2 heq
    have := rotIndex_inj b k' k hw (by omega) (by omega) heq
    omega

/-- `Rotate` changes nothing but the matrix. -/
theorem rotate_fields (b b' : Block) (h : b.Rotate = some b') :
    b'.Width = b.Width ∧ b'.Height = b.Height ∧ b'.X = b.X ∧ b'.Y = b.Y := by
  unfold Block.Rotate at h
  cases hm : Block.Rotate.loop b b.Matrix b.Matrix.length 0 b.Matrix with
  | none => simp [hm] at h
  | some m =>
    simp only [hm, Option.some.injEq] at h
    subst h
    exact ⟨rfl, rfl, rfl, rfl⟩

/-- `Rotate` keeps the length of the matrix. -/
theorem rotate_length (b b' : Block) (h : b.Rotate = some b') :
    b'.Matrix.length = b.Matrix.length := by
  unfold Block.Rotate at h
  cases hm : Block.Rotate.loop b b.Matrix b.Matrix.length 0 b.Matrix with
  | none => simp [hm] at h
  | some m =>
    simp only [hm, Option.some.injEq] at h
    subst h
    exact (rotate_loop_frame b b.Matrix _ _ _ _ hm).1

/-- C10. For a block with a square bounding box (`Width = Height = n >= 1`,
`n * n` cells) `Rotate` returns, leaves `Width`, `Height`, `X` and `Y` as they
were, and turns the matrix a quarter clockwise: the cell at row `r`, column
`c` afterwards is the original cell at row `n-1-c`, column `r`; equivalently
the source cell at column `x`, row `y` is found at index `x*n + (n-1-y)`. -/
theorem Rotate_square (b : Block) (n : Nat) (hn : 1 ≤ n) (hW : b.Width = (n : Int))
    (hH : b.Height = (n : Int)) (hlen : b.Matrix.length = n * n) :
    ∃ b', b.Rotate = some b' ∧ b'.Width = b.Width ∧ b'.Height = b.Height ∧
      b'.X = b.X ∧ b'.Y = b.Y ∧ b'.Matrix.length = n * n ∧
      (∀ r c, r < n → c < n → b'.Matrix[r * n + c]? = b.Matrix[(n - 1 - c) * n + r]?) ∧
      (∀ x y, x < n → y < n → b'.Matrix[x * n + (n - 1 - y)]? = b.Matrix[y * n + x]?) := by
  have hw : 0 < b.Width := by omega
  have hlenI : (b.Matrix.length : Int) = b.Width * b.Height := by
    rw [hW, hH, hlen]; push_cast; ring
  obtain ⟨b', hb', h1, h2, h3, h4, h5, h6⟩ := rotate_spec b hw hlenI
  have key : ∀ x y, x < n → y < n → b'.Matrix[x * n + (n - 1 - y)]? = b.Matrix[y * n + x]? := by
    intro x y hx hy
    have hk : y * n + x < b.Matrix.length := by
      rw [hlen]
      have : y * n + n ≤ n * n := by
        have := Nat.mul_le_mul_right n (Nat.succ_le_of_lt hy)
        rw [Nat.succ_mul] at this
        exact this
      omega
    have hkI : ((y * n + x : Nat) : Int) < b.Width * b.Height := by
      rw [← hlenI]; exact_mod_cast hk
    obtain ⟨e1, e2, -, -, -, -⟩ := cell_coords b.Width b.Height (y * n + x) hw hkI
    have hnpos : (0 : Int) < n := by omega
    have hmod : ((y * n + x : Nat) : Int) % (n : Int) = (x : Int) := by
      push_cast
      rw [add_comm, Int.add_mul_emod_self, Int.emod_eq_of_lt (by omega) (by omega)]
    have hdiv : ((y * n + x : Nat) : Int) / (n : Int) = (y : Int) := by
      push_cast
      rw [add_comm, Int.add_mul_ediv_right _ _ (by omega),
        Int.ediv_eq_zero_of_lt (by omega) (by omega)]
      omega
    have hidx : rotIndex b (y * n + x) = ((x * n + (n - 1 - y) : Nat) : Int) := by
      unfold rotIndex
      rw [e1, e2, hW, hH, hmod, hdiv]
      push_cast
      omega
    have := h6 (y * n + x) hk
    rw [hidx, readAt_natCast] at this
    exact this
  refine ⟨b', hb', h1, h2, h3, h4, by rw [h5, hlen], ?_, key⟩
  intro r c hr hc
  have := key r (n - 1 - c) hr (by omega)
  have e : n - 1 - (n - 1 - c) = c := by omega
  rw [e] at this
  exact this

/-- C10, at the first spawn shape. -/
theorem Rotate_square_witness :
    (1 ≤ 3 ∧ (NewBlock 0).Width = ((3 : Nat) : Int) ∧ (NewBlock 0).Height = ((3 : Nat) : Int) ∧
      (NewBlock 0).Matrix.length = 3 * 3) ∧
    ∃ b', (NewBlock 0).Rotate = some b' ∧ b'.Width = (NewBlock 0).Width ∧
      b'.Height = (NewBlock 0).Height ∧ b'.X = (NewBlock 0).X ∧ b'.Y = (NewBlock 0).Y ∧
      b'.Matrix.length = 3 * 3 ∧
      (∀ r c, r < 3 → c < 3 →
        b'.Matrix[r * 3 + c]? = (NewBlock 0).Matrix[(3 - 1 - c) * 3 + r]?) ∧
      (∀ x y, x < 3 → y < 3 →
        b'.Matrix[x * 3 + (3 - 1 - y)]? = (NewBlock 0).Matrix[y * 3 + x]?) :=
  ⟨⟨by decide, by decide, by decide, by decide⟩,
    Rotate_square (NewBlock 0) 3 (by decide) (by decide) (by decide) (by decide)⟩

/-! ## RotateBlock -/

/-- `RotateBlock` returns whenever the block has a positive width and block
and field matrices have `Width * Height` cells. -/
theorem rotateBlock_total (gs : GameState) (hw : 0 < gs.Block.Width)
    (hbl : (gs.Block.Matrix.length : Int) = gs.Block.Width * gs.Block.Height)
    (hfl : (gs.Field.Matrix.length : Int) = gs.Field.Width * gs.Field.Height) :
    ∃ gs', gs.RotateBlock = some gs' := by
  obtain ⟨rot, hrot, hrw, -⟩ := rotate_spec gs.Block hw hbl
  unfold GameState.RotateBlock
  rw [Block.Copy_eq, hrot]
  simp only []
  rcases canPlace_loop_total gs.Field rot (by omega) hfl rot.Matrix.length 0 (by omega)
    with h | h
  · refine ⟨{ gs with Block := rot }, ?_⟩
    unfold Field.CanPlace
    simp only [h]
  · refine ⟨gs, ?_⟩
    unfold Field.CanPlace
    simp only [h]

/-- The two outcomes of `RotateBlock`. -/
theorem rotateBlock_cases (gs gs' : GameState) (h : gs.RotateBlock = some gs') :
    ∃ rot, gs.Block.Copy.Rotate = some rot ∧
      ((gs.Field.CanPlace rot = some true ∧ gs' = { gs with Block := rot }) ∨
        (gs.Field.CanPlace rot = some false ∧ gs' = gs)) := by
  unfold GameState.RotateBlock at h
  cases hrot : gs.Block.Copy.Rotate with
  | none => simp [hrot] at h
  | some rot =>
    simp only [hrot] at h
    refine ⟨rot, rfl, ?_⟩
    cases hc : gs.Field.CanPlace rot with
    | none => simp [hc] at h
    | some v =>
      cases v with
      | true =>
        simp only [hc, Option.some.injEq] at h
        exact Or.inl ⟨rfl, h.symm⟩
      | false =>
        simp only [hc, Option.some.injEq] at h
        exact Or.inr ⟨rfl, h.symm⟩

/-- C9. `RotateBlock` makes the rotated copy the current block exactly when
`CanPlace` holds for it, and otherwise leaves the current block as it was;
either way `X`, `Y`, `Width`, `Height` of the block, the field and
`LinesCleared` are unchanged.  It returns (no panic) whenever the block has a
positive width and block and field matrices have `Width * Height` cells. -/
theorem RotateBlock_spec (gs : GameState) :
    ((0 < gs.Block.Width ∧
        (gs.Block.Matrix.length : Int) = gs.Block.Width * gs.Block.Height ∧
        (gs.Field.Matrix.length : Int) = gs.Field.Width * gs.Field.Height) →
      ∃ gs', gs.RotateBlock = some gs') ∧
    ∀ gs', gs.RotateBlock = some gs' →
      ∃ rot, gs.Block.Copy.Rotate = some rot ∧
        gs'.Block = (if gs.Field.CanPlace rot = some true then rot else gs.Block) ∧
        gs'.Block.X = gs.Block.X ∧ gs'.Block.Y = gs.Block.Y ∧
        gs'.Block.Width = gs.Block.Width ∧ gs'.Block.Height = gs.Block.Height ∧
        gs'.Field = gs.Field ∧ gs'.LinesCleared = gs.LinesCleared := by
  constructor
  · rintro ⟨hw, hbl, hfl⟩
    exact rotateBlock_total gs hw hbl hfl
  · intro gs' h
    obtain ⟨rot, hrot, hcase⟩ := rotateBlock_cases gs gs' h
    have hf := rotate_fields _ _ hrot
    rw [Block.Copy_eq] at hf
    refine ⟨rot, hrot, ?_⟩
    rcases hcase with ⟨hc, rfl⟩ | ⟨hc, rfl⟩
    · rw [hc, if_pos rfl]
      exact ⟨rfl, hf.2.2.1, hf.2.2.2, hf.1, hf.2.1, rfl, rfl⟩
    · have hne : ¬ (some false = some true) := by simp
      rw [hc, if_neg hne]
      exact ⟨rfl, rfl, rfl, rfl, rfl, rfl, rfl⟩

/-- C9, at the T shape on an empty 4 x 4 field. -/
theorem RotateBlock_spec_witness :
    (0 < exampleT.Block.Width ∧
      (exampleT.Block.Matrix.length : Int) = exampleT.Block.Width * exampleT.Block.Height ∧
      (exampleT.Field.Matrix.length : Int) = exampleT.Field.Width * exampleT.Field.Height) ∧
    (∃ gs', exampleT.RotateBlock = some gs') ∧
    exampleT.RotateBlock = some exampleTRotated ∧
    ∃ rot, exampleT.Block.Copy.Rotate = some rot ∧
      exampleTRotated.Block
        = (if exampleT.Field.CanPlace rot = some true then rot else exampleT.Block) ∧
      exampleTRotated.Block.X = exampleT.Block.X ∧
      exampleTRotated.Block.Y = exampleT.Block.Y ∧
      exampleTRotated.Block.Width = exampleT.Block.Width ∧
      exampleTRotated.Block.Height = exampleT.Block.Height ∧
      exampleTRotated.Field = exampleT.Field ∧
      exampleTRotated.LinesCleared = exampleT.LinesCleared :=
  ⟨by decide, (RotateBlock_spec exampleT).1 (by decide), by decide,
    (RotateBlock_spec exampleT).2 exampleTRotated (by decide)⟩

/-! ## The current block and the field -/

/-- C8, refuted. Three states reachable from `New` whose current block is not
placeable: (1) `New(3, 3)` with the bar, which is wider than the field;
(2) on a 4 x 4 field, two squares dropped on each other fill the spawn cells
and the third square is spawned onto them; (3) on a 4 x 6 field a block that
sits placeably under an overhang is hit by the overhang when
`ClearCompleteLines` removes the complete bottom row. -/
theorem Block_placeable_fails :
    ((New 3 3 4 = some ⟨⟨3, 3, [0, 0, 0, 0, 0, 0, 0, 0, 0]⟩,
          ⟨4, 4, -1, 0, [0, 0, 0, 0, 5, 5, 5, 5, 0, 0, 0, 0, 0, 0, 0, 0]⟩, 0⟩) ∧
      Field.CanPlace ⟨3, 3, [0, 0, 0, 0, 0, 0, 0, 0, 0]⟩
          ⟨4, 4, -1, 0, [0, 0, 0, 0, 5, 5, 5, 5, 0, 0, 0, 0, 0, 0, 0, 0]⟩ = some false) ∧
    (((New 4 4 1).bind fun g => g.run
          [Op.nudge 1 true 1, Op.nudge 1 true 1, Op.nudge 1 true 1, Op.nudge 1 true 1])
        = some ⟨⟨4, 4, [0, 2, 2, 0, 0, 2, 2, 0, 0, 2, 2, 0, 0, 2, 2, 0]⟩,
          ⟨2, 2, 1, 0, [2, 2, 2, 2]⟩, 0⟩ ∧
      Field.CanPlace ⟨4, 4, [0, 2, 2, 0, 0, 2, 2, 0, 0, 2, 2, 0, 0, 2, 2, 0]⟩
          ⟨2, 2, 1, 0, [2, 2, 2, 2]⟩ = some false) ∧
    (((New 4 6 4).bind fun g => g.run overhangOps)
        = some ⟨⟨4, 6, [0, 0, 0, 0, 0, 0, 0, 0, 0, 0, 0, 0,
                        0, 6, 6, 0, 0, 0, 6, 6, 5, 5, 5, 5]⟩,
          ⟨3, 3, -1, 2, [0, 3, 0, 0, 3, 0, 0, 3, 3]⟩, 0⟩ ∧
      Field.CanPlace ⟨4, 6, [0, 0, 0, 0, 0, 0, 0, 0, 0, 0, 0, 0,
                             0, 6, 6, 0, 0, 0, 6, 6, 5, 5, 5, 5]⟩
          ⟨3, 3, -1, 2, [0, 3, 0, 0, 3, 0, 0, 3, 3]⟩ = some true ∧
      ((New 4 6 4).bind fun g => g.run (overhangOps ++ [Op.clear]))
        = some ⟨⟨4, 6, [0, 0, 0, 0, 0, 0, 0, 0, 0, 0, 0, 0,
                        0, 0, 0, 0, 0, 6, 6, 0, 0, 0, 6, 6]⟩,
          ⟨3, 3, -1, 2, [0, 3, 0, 0, 3, 0, 0, 3, 3]⟩, 1⟩ ∧
      Field.CanPlace ⟨4, 6, [0, 0, 0, 0, 0, 0, 0, 0, 0, 0, 0, 0,
                             0, 0, 0, 0, 0, 6, 6, 0, 0, 0, 6, 6]⟩
          ⟨3, 3, -1, 2, [0, 3, 0, 0, 3, 0, 0, 3, 3]⟩ = some false) := by
  decide

/-! ## CanMove -/

theorem canMove_loop_eq (f : Field) (b : Block) (dx dy : Int) :
    ∀ (n i : Nat), Field.CanMove.loop f b dx dy n i
      = Field.CanPlace.loop f { b with X := b.X + dx, Y := b.Y + dy } n i := by
  intro n
  induction n with
  | zero => intro i; rfl
  | succ n ih =>
    intro i
    unfold Field.CanMove.loop Field.CanPlace.loop
    simp only [ih, add_assoc]

/-- C20. `CanMove(b, dx, dy)` returns what `CanPlace` returns on the copy of
`b` with `X + dx` and `Y + dy` in place of `X` and `Y` (the same boolean, and
a panic exactly when the other panics); in particular
`CanMove(b, 0, 0) = CanPlace(b)`. -/
theorem CanMove_eq_CanPlace (f : Field) (b : Block) (dx dy : Int) :
    f.CanMove b dx dy = f.CanPlace { b with X := b.X + dx, Y := b.Y + dy } ∧
    f.CanMove b 0 0 = f.CanPlace b := by
  have h : ∀ dx dy, f.CanMove b dx dy = f.CanPlace { b with X := b.X + dx, Y := b.Y + dy } :=
    fun dx dy => canMove_loop_eq f b dx dy b.Matrix.length 0
  refine ⟨h dx dy, ?_⟩
  rw [h 0 0]
  simp only [add_zero]

/-! ## DrawBlock and CanPlace -/

/-- C12. When `CanPlace(b)` holds, `DrawBlock(b)` returns (no write is out of
range: every non-zero cell of the block has its coordinates inside the grid
and its index inside the matrix), keeps `Width`, `Height` and the length of
the matrix, leaves the colour of each non-zero block cell on the field cell
`(X + localX, Y + localY)`, and leaves every other field cell as it was. -/
theorem DrawBlock_spec (f : Field) (b : Block) (hp : f.CanPlace b = some true) :
    ∃ f', f.DrawBlock b = some f' ∧ f'.Width = f.Width ∧ f'.Height = f.Height ∧
      f'.Matrix.length = f.Matrix.length ∧
      (∀ (i : Nat) (c : Int), b.Matrix[i]? = some c → c ≠ 0 →
        (0 ≤ Int.tmod i b.Width + b.X ∧ Int.tmod i b.Width + b.X < f.Width ∧
          0 ≤ Int.tdiv i b.Width + b.Y ∧ Int.tdiv i b.Width + b.Y < f.Height) ∧
        (0 ≤ target f b i ∧ target f b i < (f.Matrix.length : Int)) ∧
        readAt f'.Matrix
          ((Int.tdiv i b.Width + b.Y) * f.Width + (Int.tmod i b.Width + b.X)) = some c) ∧
      (∀ p, (∀ i c, b.Matrix[i]? = some c → c ≠ 0 → target f b i ≠ p) →
        readAt f'.Matrix p = readAt f.Matrix p) := by
  obtain ⟨f', h1, h2, h3, h4, h5, h6⟩ := drawBlock_of_canPlace f b hp
  obtain ⟨_, hfree⟩ := cellFree_of_canPlace f b hp
  refine ⟨f', h1, h2, h3, h4, ?_, h6⟩
  intro i c hic hc
  have hA := hfree i c hic hc
  exact ⟨⟨hA.1, hA.2.1, hA.2.2.1, hA.2.2.2.1⟩, readAt_eq_some_bounds _ _ _ hA.2.2.2.2,
    h5 i c hic hc⟩

/-- C12, at a 3 x 2 field with one occupied cell and the square block. -/
theorem DrawBlock_spec_witness :
    Field.CanPlace ⟨3, 2, [0, 0, 0, 0, 0, 7]⟩ ⟨2, 2, 0, 0, [2, 2, 2, 2]⟩ = some true ∧
    Field.DrawBlock ⟨3, 2, [0, 0, 0, 0, 0, 7]⟩ ⟨2, 2, 0, 0, [2, 2, 2, 2]⟩
      = some ⟨3, 2, [2, 2, 0, 2, 2, 7]⟩ ∧
    ∃ f', Field.DrawBlock ⟨3, 2, [0, 0, 0, 0, 0, 7]⟩ ⟨2, 2, 0, 0, [2, 2, 2, 2]⟩ = some f' ∧
      f'.Width = 3 ∧ f'.Height = 2 ∧
      f'.Matrix.length = ([0, 0, 0, 0, 0, 7] : List Int).length ∧
      (∀ (i : Nat) (c : Int), ([2, 2, 2, 2] : List Int)[i]? = some c → c ≠ 0 →
        (0 ≤ Int.tmod i 2 + 0 ∧ Int.tmod i 2 + 0 < (3 : Int) ∧
          0 ≤ Int.tdiv i 2 + 0 ∧ Int.tdiv i 2 + 0 < (2 : Int)) ∧
        (0 ≤ target ⟨3, 2, [0, 0, 0, 0, 0, 7]⟩ ⟨2, 2, 0, 0, [2, 2, 2, 2]⟩ i ∧
          target ⟨3, 2, [0, 0, 0, 0, 0, 7]⟩ ⟨2, 2, 0, 0, [2, 2, 2, 2]⟩ i
            < (([0, 0, 0, 0, 0, 7] : List Int).length : Int)) ∧
        readAt f'.Matrix ((Int.tdiv i 2 + 0) * 3 + (Int.tmod i 2 + 0)) = some c) ∧
      (∀ p, (∀ i c, ([2, 2, 2, 2] : List Int)[i]? = some c → c ≠ 0 →
          target ⟨3, 2, [0, 0, 0, 0, 0, 7]⟩ ⟨2, 2, 0, 0, [2, 2, 2, 2]⟩ i ≠ p) →
        readAt f'.Matrix p = readAt [0, 0, 0, 0, 0, 7] p) :=
  ⟨by decide, by decide,
    DrawBlock_spec ⟨3, 2, [0, 0, 0, 0, 0, 7]⟩ ⟨2, 2, 0, 0, [2, 2, 2, 2]⟩ (by decide)⟩

/-- The `CanPlace` loop does not panic when every non-zero cell whose
coordinates are inside the grid has a readable field cell. -/
theorem canPlace_loop_total_of_readable (f : Field) (b : Block) (hW : b.Width ≠ 0)
    (hread : ∀ (k : Nat) (c : Int), b.Matrix[k]? = some c → c ≠ 0 →
      0 ≤ Int.tmod k b.Width + b.X → Int.tmod k b.Width + b.X < f.Width →
      0 ≤ Int.tdiv k b.Width + b.Y → Int.tdiv k b.Width + b.Y < f.Height →
      ∃ t, readAt f.Matrix
        ((Int.tdiv k b.Width + b.Y) * f.Width + (Int.tmod k b.Width + b.X)) = some t) :
    ∀ (n i : Nat), i + n ≤ b.Matrix.length →
      Field.CanPlace.loop f b n i = some true ∨ Field.CanPlace.loop f b n i = some false := by
  intro n
  induction n with
  | zero => intro i _; left; rfl
  | succ n ih =>
    intro i hi
    have hlt : i < b.Matrix.length := by omega
    have ih' := ih (i + 1) (by omega)
    have hget : b.Matrix[i]? = some b.Matrix[i] := List.getElem?_eq_getElem hlt
    unfold Field.CanPlace.loop
    simp only [hW, if_false, hget]
    by_cases hc : b.Matrix[i] = 0
    · simp only [hc, if_true]; exact ih'
    · simp only [hc, if_false]
      by_cases hb : Int.tmod i b.Width + b.X < 0 ∨ Int.tdiv i b.Width + b.Y < 0 ∨
          Int.tmod i b.Width + b.X ≥ f.Width ∨ Int.tdiv i b.Width + b.Y ≥ f.Height
      · simp only [hb, if_true]; right; trivial
      · simp only [hb, if_false]
        obtain ⟨t, ht⟩ := hread i _ hget hc (by omega) (by omega) (by omega) (by omega)
        simp only [ht]
        split
        · right; rfl
        · exact ih'

/-- C13. When `CanPlace(b)` holds and the block has a non-zero cell,
`DrawBlock(b)` returns and `CanPlace(b)` on the field it leaves, for the same
block at the same position, returns false. -/
theorem CanPlace_after_DrawBlock (f : Field) (b : Block) (hp : f.CanPlace b = some true)
    (hnz : ∃ (i : Nat) (c : Int), b.Matrix[i]? = some c ∧ c ≠ 0) :
    ∃ f', f.DrawBlock b = some f' ∧ f'.CanPlace b = some false := by
  obtain ⟨f', h1, h2, h3, h4, h5, -⟩ := drawBlock_of_canPlace f b hp
  obtain ⟨hW, hfree⟩ := cellFree_of_canPlace f b hp
  obtain ⟨i, c, hic, hc⟩ := hnz
  have hlen : b.Matrix.length ≠ 0 := by
    intro h0
    rw [List.getElem?_eq_none (by omega)] at hic
    simp at hic
  refine ⟨f', h1, ?_⟩
  have htot := canPlace_loop_total_of_readable f' b (hW hlen) (by
    intro k ck hk hck _ _ _ _
    have hA := hfree k ck hk hck
    have hB := readAt_eq_some_bounds _ _ _ hA.2.2.2.2
    rw [h2]
    exact readAt_isSome_of_lt f'.Matrix _ hB.1 (by rw [h4]; exact hB.2)) b.Matrix.length 0
    (by omega)
  rcases htot with ht | hf
  · exfalso
    have hp' : f'.CanPlace b = some true := ht
    obtain ⟨_, hfree'⟩ := cellFree_of_canPlace f' b hp'
    have hz := (hfree' i c hic hc).2.2.2.2
    have hw := h5 i c hic hc
    unfold target at hw
    rw [h2, hw] at hz
    simp only [Option.some.injEq] at hz
    exact hc hz
  · exact hf

/-- C13, at a 3 x 2 field with one occupied cell and the square block. -/
theorem CanPlace_after_DrawBlock_witness :
    (Field.CanPlace ⟨3, 2, [0, 0, 0, 0, 0, 7]⟩ ⟨2, 2, 0, 0, [2, 2, 2, 2]⟩ = some true ∧
      ∃ (i : Nat) (c : Int), ([2, 2, 2, 2] : List Int)[i]? = some c ∧ c ≠ 0) ∧
    ∃ f', Field.DrawBlock ⟨3, 2, [0, 0, 0, 0, 0, 7]⟩ ⟨2, 2, 0, 0, [2, 2, 2, 2]⟩ = some f' ∧
      f'.CanPlace ⟨2, 2, 0, 0, [2, 2, 2, 2]⟩ = some false :=
  ⟨⟨by decide, ⟨0, 2, by decide, by decide⟩⟩,
    CanPlace_after_DrawBlock ⟨3, 2, [0, 0, 0, 0, 0, 7]⟩ ⟨2, 2, 0, 0, [2, 2, 2, 2]⟩ (by decide)
      ⟨0, 2, by decide, by decide⟩⟩

/-! ## Rotate as a permutation -/

/-- A list whose cells are those of another list moved along a one-to-one
index map is a permutation of it. -/
theorem perm_of_index_map (l1 l2 : List Int) (σ : Nat → Nat) (hlen : l2.length = l1.length)
    (hmap : ∀ k, k < l1.length → σ k < l1.length ∧ l2[σ k]? = l1[k]?)
    (hinj : ∀ k k', k < l1.length → k' < l1.length → σ k = σ k' → k = k') :
    l2.Perm l1 := by
  let e : Fin l1.length → Fin l1.length := fun k => ⟨σ k, (hmap k k.2).1⟩
  have he : Function.Injective e := by
    intro a a' h
    have : σ a = σ a' := congrArg Fin.val h
    exact Fin.ext (hinj a a' a.2 a'.2 this)
  let τ : Equiv.Perm (Fin l1.length) :=
    Equiv.ofBijective e (Finite.injective_iff_bijective.mp he)
  let f : Fin l1.length → Int := fun j => l2[j.1]?.getD 0
  have h2 : List.ofFn f = l2 := by
    apply List.ext_getElem?
    intro i
    by_cases hi : i < l1.length
    · rw [List.getElem?_eq_getElem (by rw [List.length_ofFn]; exact hi), List.getElem_ofFn]
      have hi2 : i < l2.length := by omega
      simp only [f, List.getElem?_eq_getElem hi2, Option.getD_some]
    · rw [List.getElem?_eq_none (by rw [List.length_ofFn]; omega),
        List.getElem?_eq_none (by omega)]
  have h1 : List.ofFn (f ∘ τ) = l1 := by
    apply List.ext_getElem?
    intro i
    by_cases hi : i < l1.length
    · rw [List.getElem?_eq_getElem (by rw [List.length_ofFn]; exact hi), List.getElem_ofFn]
      have hm := (hmap i hi).2
      simp only [Function.comp, f, τ, Equiv.ofBijective_apply, e, hm,
        List.getElem?_eq_getElem hi, Option.getD_some]
    · rw [List.getElem?_eq_none (by rw [List.length_ofFn]; omega),
        List.getElem?_eq_none (by omega)]
  have := Equiv.Perm.ofFn_comp_perm τ f
  rw [h1, h2] at this
  exact this.symm

/-- C19. For a block with `Width >= 1` and `Width * Height` cells (so that
`Height >= 1` unless the matrix is empty; the two may differ), the index map of `Rotate`,
`i -> (i mod Width)*Height + (Height-1 - i div Width)`, maps the indices of
the matrix into themselves, is one-to-one and onto; `Rotate` returns (it
never writes outside the matrix), the rotated matrix is a permutation of the
original (same length, same values with the same multiplicities, the same
number of non-zero cells), and `Width` and `Height` are not swapped. -/
theorem Rotate_permutes (b : Block) (hW : 0 < b.Width)
    (hlen : (b.Matrix.length : Int) = b.Width * b.Height) :
    (∀ i : Nat, i < b.Matrix.length →
      rotIndex b i = ((i : Int) % b.Width) * b.Height + (b.Height - 1 - (i : Int) / b.Width) ∧
      0 ≤ rotIndex b i ∧ rotIndex b i < (b.Matrix.length : Int)) ∧
    (∀ i i' : Nat, i < b.Matrix.length → i' < b.Matrix.length →
      rotIndex b i = rotIndex b i' → i = i') ∧
    (∀ j : Nat, j < b.Matrix.length → ∃ i : Nat, i < b.Matrix.length ∧ rotIndex b i = (j : Int)) ∧
    ∃ b', b.Rotate = some b' ∧ b'.Matrix.length = b.Matrix.length ∧
      b'.Matrix.Perm b.Matrix ∧
      b'.Matrix.countP (fun c => c != 0) = b.Matrix.countP (fun c => c != 0) ∧
      b'.Width = b.Width ∧ b'.Height = b.Height := by
  have hin : ∀ i : Nat, i < b.Matrix.length → (i : Int) < b.Width * b.Height := by
    intro i hi; rw [← hlen]; exact_mod_cast hi
  have hbd : ∀ i : Nat, i < b.Matrix.length →
      0 ≤ rotIndex b i ∧ rotIndex b i < (b.Matrix.length : Int) := by
    intro i hi
    rw [hlen]
    exact rotIndex_bounds b i hW (hin i hi)
  have hinj : ∀ i i' : Nat, i < b.Matrix.length → i' < b.Matrix.length →
      rotIndex b i = rotIndex b i' → i = i' :=
    fun i i' hi hi' h => rotIndex_inj b i i' hW (hin i hi) (hin i' hi') h
  obtain ⟨b', hb', hw', hh', -, -, hl', hcells⟩ := rotate_spec b hW hlen
  have hσ : ∀ k, k < b.Matrix.length → (rotIndex b k).toNat < b.Matrix.length ∧
      b'.Matrix[(rotIndex b k).toNat]? = b.Matrix[k]? := by
    intro k hk
    have h1 := hbd k hk
    refine ⟨by omega, ?_⟩
    have := hcells k hk
    unfold readAt at this
    have hn : ¬ (rotIndex b k < 0) := by omega
    simp only [hn, if_false] at this
    exact this
  have hσinj : ∀ k k', k < b.Matrix.length → k' < b.Matrix.length →
      (rotIndex b k).toNat = (rotIndex b k').toNat → k = k' := by
    intro k k' hk hk' h
    have h1 := hbd k hk
    have h2 := hbd k' hk'
    exact hinj k k' hk hk' (by omega)
  have hperm := perm_of_index_map b.Matrix b'.Matrix (fun k => (rotIndex b k).toNat) hl' hσ hσinj
  refine ⟨?_, hinj, ?_, b', hb', hl', hperm, hperm.countP_eq _, hw', hh'⟩
  · intro i hi
    obtain ⟨e1, e2, -, -, -, -⟩ := cell_coords b.Width b.Height i hW (hin i hi)
    refine ⟨?_, hbd i hi⟩
    unfold rotIndex
    rw [e1, e2]
  · intro j hj
    let e : Fin b.Matrix.length → Fin b.Matrix.length :=
      fun k => ⟨(rotIndex b k).toNat, (hσ k k.2).1⟩
    have he : Function.Injective e := by
      intro a a' h
      have : (rotIndex b a).toNat = (rotIndex b a').toNat := congrArg Fin.val h
      exact Fin.ext (hσinj a a' a.2 a'.2 this)
    obtain ⟨k, hk⟩ := (Finite.injective_iff_surjective.mp he) ⟨j, hj⟩
    refine ⟨k.1, k.2, ?_⟩
    have : (rotIndex b k).toNat = j := congrArg Fin.val hk
    have h1 := hbd k k.2
    omega

/-- C19, at a 2 x 3 block. -/
theorem Rotate_permutes_witness :
    ((0 : Int) < 2 ∧ ((([1, 2, 3, 4, 5, 6] : List Int).length : Int) = 2 * 3)) ∧
    Block.Rotate ⟨2, 3, 0, 0, [1, 2, 3, 4, 5, 6]⟩ = some ⟨2, 3, 0, 0, [5, 3, 1, 6, 4, 2]⟩ ∧
    ∃ b', Block.Rotate ⟨2, 3, 0, 0, [1, 2, 3, 4, 5, 6]⟩ = some b' ∧
      b'.Matrix.length = ([1, 2, 3, 4, 5, 6] : List Int).length ∧
      b'.Matrix.Perm [1, 2, 3, 4, 5, 6] ∧
      b'.Matrix.countP (fun c => c != 0)
        = ([1, 2, 3, 4, 5, 6] : List Int).countP (fun c => c != 0) ∧
      b'.Width = 2 ∧ b'.Height = 3 :=
  ⟨⟨by decide, by decide⟩, by decide,
    (Rotate_permutes ⟨2, 3, 0, 0, [1, 2, 3, 4, 5, 6]⟩ (by decide) (by decide)).2.2.2⟩

/-! ## Four rotations -/

/-- The cells of a rotated square block. -/
theorem rotate_square_get (b : Block) (n : Nat) (hn : 1 ≤ n) (hW : b.Width = (n : Int))
    (hH : b.Height = (n : Int)) (hlen : b.Matrix.length = n * n) :
    ∃ b', b.Rotate = some b' ∧ b'.Width = b.Width ∧ b'.Height = b.Height ∧
      b'.X = b.X ∧ b'.Y = b.Y ∧ b'.Matrix.length = n * n ∧
      ∀ r c, r < n → c < n → b'.Matrix[r * n + c]? = b.Matrix[(n - 1 - c) * n + r]? := by
  have hw : 0 < b.Width := by omega
  have hlenI : (b.Matrix.length : Int) = b.Width * b.Height := by
    rw [hW, hH, hlen]; push_cast; ring
  obtain ⟨b', hb', h1, h2, h3, h4, h5, h6⟩ := rotate_spec b hw hlenI
  refine ⟨b', hb', h1, h2, h3, h4, by rw [h5, hlen], ?_⟩
  intro r c hr hc
  have hy : n - 1 - c < n := by omega
  have hk : (n - 1 - c) * n + r < b.Matrix.length := by
    rw [hlen]
    have := Nat.mul_le_mul_right n (Nat.succ_le_of_lt hy)
    rw [Nat.succ_mul] at this
    omega
  have hkI : (((n - 1 - c) * n + r : Nat) : Int) < b.Width * b.Height := by
    rw [← hlenI]; exact_mod_cast hk
  obtain ⟨e1, e2, -, -, -, -⟩ := cell_coords b.Width b.Height ((n - 1 - c) * n + r) hw hkI
  have hmod : (((n - 1 - c) * n + r : Nat) : Int) % (n : Int) = (r : Int) := by
    push_cast
    rw [add_comm, Int.add_mul_emod_self, Int.emod_eq_of_lt (by omega) (by omega)]
  have hdiv : (((n - 1 - c) * n + r : Nat) : Int) / (n : Int) = ((n - 1 - c : Nat) : Int) := by
    push_cast
    rw [add_comm, Int.add_mul_ediv_right _ _ (by omega),
      Int.ediv_eq_zero_of_lt (by omega) (by omega)]
    omega
  have hidx : rotIndex b ((n - 1 - c) * n + r) = ((r * n + c : Nat) : Int) := by
    unfold rotIndex
    rw [e1, e2, hW, hH, hmod, hdiv]
    push_cast
    omega
  have := h6 _ hk
  rw [hidx, readAt_natCast] at this
  exact this

/-- Repeated rotation keeps the dimensions, the position and the length of
the matrix. -/
theorem rotateTimes_fields :
    ∀ (j : Nat) (b b' : Block), rotateTimes j b = some b' →
      b'.Width = b.Width ∧ b'.Height = b.Height ∧ b'.X = b.X ∧ b'.Y = b.Y ∧
      b'.Matrix.length = b.Matrix.length := by
  intro j
  induction j with
  | zero =>
    intro b b' h
    simp only [rotateTimes, Option.some.injEq] at h
    subst h
    exact ⟨rfl, rfl, rfl, rfl, rfl⟩
  | succ j ih =>
    intro b b' h
    unfold rotateTimes at h
    cases hr : b.Rotate with
    | none => simp [hr] at h
    | some b1 =>
      simp only [hr] at h
      obtain ⟨a1, a2, a3, a4, a5⟩ := ih b1 b' h
      obtain ⟨c1, c2, c3, c4⟩ := rotate_fields b b1 hr
      have c5 := rotate_length b b1 hr
      exact ⟨a1.trans c1, a2.trans c2, a3.trans c3, a4.trans c4, a5.trans c5⟩

/-- Four quarter turns of the cells of an `n` x `n` matrix give the matrix
back. -/
theorem four_turns_get (n : Nat) (hn : 1 ≤ n) (m0 m1 m2 m3 m4 : List Int)
    (l0 : m0.length = n * n) (l4 : m4.length = n * n)
    (g1 : ∀ r c, r < n → c < n → m1[r * n + c]? = m0[(n - 1 - c) * n + r]?)
    (g2 : ∀ r c, r < n → c < n → m2[r * n + c]? = m1[(n - 1 - c) * n + r]?)
    (g3 : ∀ r c, r < n → c < n → m3[r * n + c]? = m2[(n - 1 - c) * n + r]?)
    (g4 : ∀ r c, r < n → c < n → m4[r * n + c]? = m3[(n - 1 - c) * n + r]?) :
    m4 = m0 := by
  apply List.ext_getElem?
  intro k
  by_cases hk : k < n * n
  · have hnpos : 0 < n := by omega
    obtain ⟨q, r, hq, hr, hkeq⟩ : ∃ q r, q < n ∧ r < n ∧ k = q * n + r := by
      refine ⟨k / n, k % n, Nat.div_lt_of_lt_mul hk, Nat.mod_lt _ hnpos, ?_⟩
      have := Nat.div_add_mod k n
      rw [Nat.mul_comm] at this
      exact this.symm
    have a1 : n - 1 - r < n := by omega
    have a2 : n - 1 - q < n := by omega
    have s1 : n - 1 - (n - 1 - r) = r := by omega
    have s2 : n - 1 - (n - 1 - q) = q := by omega
    have e4 := g4 q r hq hr
    have e3 := g3 (n - 1 - r) q a1 hq
    have e2 := g2 (n - 1 - q) (n - 1 - r) a2 a1
    have e1 := g1 r (n - 1 - q) hr a2
    rw [s1] at e2
    rw [s2] at e1
    rw [hkeq, e4, e3, e2, e1]
  · rw [List.getElem?_eq_none (by omega), List.getElem?_eq_none (by omega)]

/-- Blocks with the same members are equal. -/
theorem block_eq (a b : Block) (hw : a.Width = b.Width) (hh : a.Height = b.Height)
    (hx : a.X = b.X) (hy : a.Y = b.Y) (hm : a.Matrix = b.Matrix) : a = b := by
  cases a
  cases b
  simp only at hw hh hx hy hm
  subst hw hh hx hy hm
  rfl

/-- Four rotations of a square block give the block back. -/
theorem rotate_four (b : Block) (n : Nat) (hn : 1 ≤ n) (hW : b.Width = (n : Int))
    (hH : b.Height = (n : Int)) (hlen : b.Matrix.length = n * n) :
    rotateTimes 4 b = some b := by
  obtain ⟨b1, r1, w1, h1, x1, y1, l1, g1⟩ := rotate_square_get b n hn hW hH hlen
  obtain ⟨b2, r2, w2, h2, x2, y2, l2, g2⟩ :=
    rotate_square_get b1 n hn (w1.trans hW) (h1.trans hH) l1
  obtain ⟨b3, r3, w3, h3, x3, y3, l3, g3⟩ :=
    rotate_square_get b2 n hn (w2.trans (w1.trans hW)) (h2.trans (h1.trans hH)) l2
  obtain ⟨b4, r4, w4, h4, x4, y4, l4, g4⟩ :=
    rotate_square_get b3 n hn (w3.trans (w2.trans (w1.trans hW)))
      (h3.trans (h2.trans (h1.trans hH))) l3
  have hrun : rotateTimes 4 b = some b4 := by
    simp only [rotateTimes, r1, r2, r3, r4]
  rw [hrun]
  have hm : b4.Matrix = b.Matrix :=
    four_turns_get n hn b.Matrix b1.Matrix b2.Matrix b3.Matrix b4.Matrix hlen l4 g1 g2 g3 g4
  have hw := w4.trans (w3.trans (w2.trans w1))
  have hh := h4.trans (h3.trans (h2.trans h1))
  have hx := x4.trans (x3.trans (x2.trans x1))
  have hy := y4.trans (y3.trans (y2.trans y1))
  exact congrArg some (block_eq b4 b hw hh hx hy hm)

/-- C11. For a block with a square bounding box (`Width = Height = n >= 1`,
`n * n` cells) four calls of `Rotate` in a row all return, and the block they
leave is the original one, matrix equal element for element; in particular
this holds for each of the seven spawn shapes in any orientation reached by
rotating it. -/
theorem Rotate_four_times :
    (∀ (b : Block) (n : Nat), 1 ≤ n → b.Width = (n : Int) → b.Height = (n : Int) →
      b.Matrix.length = n * n →
      ∃ b4, rotateTimes 4 b = some b4 ∧ b4.Matrix = b.Matrix ∧ b4 = b) ∧
    (∀ (k j : Nat) (b : Block), k < 7 → rotateTimes j (NewBlock k) = some b →
      ∃ b4, rotateTimes 4 b = some b4 ∧ b4.Matrix = b.Matrix) := by
  constructor
  · intro b n hn hW hH hlen
    exact ⟨b, rotate_four b n hn hW hH hlen, rfl, rfl⟩
  · intro k j b hk hj
    obtain ⟨hw, hh, -, -, hl⟩ := rotateTimes_fields j _ _ hj
    have key : ∀ n : Nat, 1 ≤ n → (NewBlock k).Width = (n : Int) →
        (NewBlock k).Height = (n : Int) → (NewBlock k).Matrix.length = n * n →
        ∃ b4, rotateTimes 4 b = some b4 ∧ b4.Matrix = b.Matrix := fun n hn h1 h2 h3 =>
      ⟨b, rotate_four b n hn (hw.trans h1) (hh.trans h2) (hl.trans h3), rfl⟩
    interval_cases k
    · exact key 3 (by decide) rfl rfl rfl
    · exact key 2 (by decide) rfl rfl rfl
    · exact key 3 (by decide) rfl rfl rfl
    · exact key 3 (by decide) rfl rfl rfl
    · exact key 4 (by decide) rfl rfl rfl
    · exact key 3 (by decide) rfl rfl rfl
    · exact key 3 (by decide) rfl rfl rfl

/-- C11, at the first spawn shape and at its orientation after one rotation. -/
theorem Rotate_four_times_witness :
    (1 ≤ 3 ∧ (NewBlock 0).Width = ((3 : Nat) : Int) ∧ (NewBlock 0).Height = ((3 : Nat) : Int) ∧
      (NewBlock 0).Matrix.length = 3 * 3) ∧
    (∃ b4, rotateTimes 4 (NewBlock 0) = some b4 ∧ b4.Matrix = (NewBlock 0).Matrix ∧
      b4 = NewBlock 0) ∧
    (0 < 7 ∧ rotateTimes 1 (NewBlock 0) = some ⟨3, 3, 0, 0, [0, 1, 0, 0, 1, 1, 0, 1, 0]⟩) ∧
    ∃ b4, rotateTimes 4 ⟨3, 3, 0, 0, [0, 1, 0, 0, 1, 1, 0, 1, 0]⟩ = some b4 ∧
      b4.Matrix = [0, 1, 0, 0, 1, 1, 0, 1, 0] :=
  ⟨⟨by decide, by decide, by decide, by decide⟩,
    Rotate_four_times.1 (NewBlock 0) 3 (by decide) (by decide) (by decide) (by decide),
    ⟨by decide, by decide⟩,
    Rotate_four_times.2 0 1 ⟨3, 3, 0, 0, [0, 1, 0, 0, 1, 1, 0, 1, 0]⟩ (by decide) (by decide)⟩

/-! ## ClearLines: length, values, count, no panic -/

theorem writeAt_mem (m m' : List Int) (j v : Int) (h : writeAt m j v = some m') :
    m'.length = m.length ∧ ∀ a ∈ m', a ∈ m ∨ a = v := by
  obtain ⟨_, _, rfl⟩ := writeAt_eq_some m m' j v h
  exact ⟨List.length_set _ _ _, fun a ha => List.mem_or_eq_of_mem_set ha⟩

theorem readAt_mem (m : List Int) (i v : Int) (h : readAt m i = some v) : v ∈ m := by
  unfold readAt at h
  by_cases h0 : i < 0
  · simp [h0] at h
  · simp only [h0, if_false] at h
    exact List.mem_iff_getElem?.mpr ⟨_, h⟩

/-- The shift loop keeps the length and only moves values around. -/
theorem clearLines_shift_mem (w : Int) :
    ∀ (n : Nat) (m m' : List Int), Field.ClearLines.shift w n m = some m' →
      m'.length = m.length ∧ ∀ a ∈ m', a ∈ m := by
  intro n
  induction n with
  | zero =>
    intro m m' h
    simp only [Field.ClearLines.shift, Option.some.injEq] at h
    subst h
    exact ⟨rfl, fun _ ha => ha⟩
  | succ n ih =>
    intro m m' h
    unfold Field.ClearLines.shift at h
    cases hr : readAt m (n : Int) with
    | none => simp [hr] at h
    | some v =>
      simp only [hr] at h
      cases hw : writeAt m ((n : Int) + w) v with
      | none => simp [hw] at h
      | some m1 =>
        simp only [hw] at h
        obtain ⟨hl, hm⟩ := ih m1 m' h
        obtain ⟨hl1, hm1⟩ := writeAt_mem _ _ _ _ hw
        refine ⟨hl.trans hl1, fun a ha => ?_⟩
        rcases hm1 a (hm a ha) with h1 | h1
        · exact h1
        · rw [h1]; exact readAt_mem _ _ _ hr

/-- The erase loop keeps the length and writes only zeros. -/
theorem clearLines_erase_mem :
    ∀ (n i : Nat) (m m' : List Int), Field.ClearLines.erase n i m = some m' →
      m'.length = m.length ∧ ∀ a ∈ m', a ∈ m ∨ a = 0 := by
  intro n
  induction n with
  | zero =>
    intro i m m' h
    simp only [Field.ClearLines.erase, Option.some.injEq] at h
    subst h
    exact ⟨rfl, fun _ ha => Or.inl ha⟩
  | succ n ih =>
    intro i m m' h
    unfold Field.ClearLines.erase at h
    cases hw : writeAt m (i : Int) 0 with
    | none => simp [hw] at h
    | some m1 =>
      simp only [hw] at h
      obtain ⟨hl, hm⟩ := ih (i + 1) m1 m' h
      obtain ⟨hl1, hm1⟩ := writeAt_mem _ _ _ _ hw
      refine ⟨hl.trans hl1, fun a ha => ?_⟩
      rcases hm a ha with h1 | h1
      · exact hm1 a h1
      · exact Or.inr h1

/-- The outer loop of `ClearLines` keeps the length, leaves only old values
and zeros, and does not lower the count. -/
theorem clearLines_loop_mem (w : Int) :
    ∀ (n : Nat) (m m' : List Int) (c c' : Int),
      Field.ClearLines.loop w n m c = some (m', c') →
      m'.length = m.length ∧ (∀ a ∈ m', a ∈ m ∨ a = 0) ∧ c ≤ c' := by
  intro n
  induction n with
  | zero =>
    intro m m' c c' h
    simp only [Field.ClearLines.loop, Option.some.injEq, Prod.mk.injEq] at h
    obtain ⟨rfl, rfl⟩ := h
    exact ⟨rfl, fun _ ha => Or.inl ha, le_refl _⟩
  | succ n ih =>
    intro m m' c c' h
    unfold Field.ClearLines.loop at h
    cases hs : sliceAt m ((n : Int) * w) (((n : Int) + 1) * w - 1) with
    | none => simp [hs] at h
    | some line =>
      simp only [hs] at h
      by_cases hc : lineComplete line = true
      · simp only [hc, Bool.not_true, Bool.false_eq_true, if_false] at h
        cases h1 : Field.ClearLines.shift w ((n : Int) * w).toNat m with
        | none => simp [h1] at h
        | some m1 =>
          simp only [h1] at h
          cases h2 : Field.ClearLines.erase w.toNat 0 m1 with
          | none => simp [h2] at h
          | some m2 =>
            simp only [h2] at h
            obtain ⟨hl, hm, hcnt⟩ := ih m2 m' (c + 1) c' h
            obtain ⟨hl1, hm1⟩ := clearLines_shift_mem w _ _ _ h1
            obtain ⟨hl2, hm2⟩ := clearLines_erase_mem _ _ _ _ h2
            refine ⟨hl.trans (hl2.trans hl1), fun a ha => ?_, by omega⟩
            rcases hm a ha with h3 | h3
            · rcases hm2 a h3 with h4 | h4
              · exact Or.inl (hm1 a h4)
              · exact Or.inr h4
            · exact Or.inr h3
      · have hc' : lineComplete line = false := by
          cases hv : lineComplete line
          · rfl
          · exact absurd hv hc
        simp only [hc', Bool.not_false, if_true] at h
        exact ih m m' c c' h

theorem clearLines_shift_total (w : Int) (hw : 0 ≤ w) :
    ∀ (n : Nat) (m : List Int), (n : Int) + w ≤ (m.length : Int) →
      ∃ m', Field.ClearLines.shift w n m = some m' := by
  intro n
  induction n with
  | zero => intro m _; exact ⟨m, rfl⟩
  | succ n ih =>
    intro m h
    unfold Field.ClearLines.shift
    obtain ⟨v, hv⟩ := readAt_isSome_of_lt m (n : Int) (by omega) (by push_cast at h; omega)
    rw [hv]
    simp only []
    rw [writeAt_isSome_of_lt m _ v (by omega) (by push_cast at h; omega)]
    simp only []
    apply ih
    rw [List.length_set]
    push_cast at h
    omega

theorem clearLines_erase_total :
    ∀ (n i : Nat) (m : List Int), i + n ≤ m.length →
      ∃ m', Field.ClearLines.erase n i m = some m' := by
  intro n
  induction n with
  | zero => intro i m _; exact ⟨m, rfl⟩
  | succ n ih =>
    intro i m h
    unfold Field.ClearLines.erase
    rw [writeAt_isSome_of_lt m _ 0 (by omega) (by omega)]
    simp only []
    apply ih
    rw [List.length_set]
    omega

/-- The outer loop of `ClearLines` does not panic on a matrix of at least
`n` rows of positive width `w`. -/
theorem clearLines_loop_total (w : Int) (hw : 0 < w) :
    ∀ (n : Nat) (m : List Int) (c : Int), (n : Int) * w ≤ (m.length : Int) →
      ∃ r, Field.ClearLines.loop w n m c = some r := by
  intro n
  induction n with
  | zero => intro m c _; exact ⟨_, rfl⟩
  | succ n ih =>
    intro m c h
    have hrow : ((n : Int) + 1) * w ≤ (m.length : Int) := by push_cast at h; exact h
    have hprev : (n : Int) * w ≤ (m.length : Int) := by
      have : ((n : Int) + 1) * w = (n : Int) * w + w := by ring
      omega
    have hnw : 0 ≤ (n : Int) * w := mul_nonneg (by omega) (by omega)
    unfold Field.ClearLines.loop
    have hs : sliceAt m ((n : Int) * w) (((n : Int) + 1) * w - 1)
        = some ((m.drop ((n : Int) * w).toNat).take
            ((((n : Int) + 1) * w - 1) - (n : Int) * w).toNat) := by
      unfold sliceAt
      have hcond : 0 ≤ (n : Int) * w ∧ (n : Int) * w ≤ ((n : Int) + 1) * w - 1 ∧
          ((n : Int) + 1) * w - 1 ≤ (m.length : Int) := by
        have : ((n : Int) + 1) * w = (n : Int) * w + w := by ring
        refine ⟨hnw, by omega, by omega⟩
      simp only [hcond, and_self, if_true]
    simp only [hs]
    split
    · exact ih m c hprev
    · obtain ⟨m1, h1⟩ := clearLines_shift_total w (le_of_lt hw) ((n : Int) * w).toNat m (by
        have : ((n : Int) + 1) * w = (n : Int) * w + w := by ring
        rw [Int.toNat_of_nonneg hnw]
        omega)
      simp only [h1]
      obtain ⟨hl1, -⟩ := clearLines_shift_mem w _ _ _ h1
      obtain ⟨m2, h2⟩ := clearLines_erase_total w.toNat 0 m1 (by
        have : ((n : Int) + 1) * w = (n : Int) * w + w := by ring
        have : (w.toNat : Int) = w := Int.toNat_of_nonneg (le_of_lt hw)
        omega)
      simp only [h2]
      obtain ⟨hl2, -⟩ := clearLines_erase_mem _ _ _ _ h2
      apply ih
      rw [hl2, hl1]
      exact hprev

/-- `ClearLines` returns on a field of positive width with `Width * Height`
cells. -/
theorem clearLines_total (f : Field) (hw : 0 < f.Width)
    (hlen : (f.Matrix.length : Int) = f.Width * f.Height) :
    ∃ r, f.ClearLines = some r := by
  have hH : 0 ≤ f.Height := by
    by_contra hcon
    have : f.Width * f.Height < 0 := mul_neg_of_pos_of_neg hw (by omega)
    omega
  obtain ⟨⟨m, c⟩, hr⟩ := clearLines_loop_total f.Width hw f.Height.toNat f.Matrix 0 (by
    rw [Int.toNat_of_nonneg hH, hlen, mul_comm])
  unfold Field.ClearLines
  rw [hr]
  exact ⟨_, rfl⟩

/-- What `ClearLines` returns: same dimensions and length, only old values and
zeros in the matrix, a count that is not negative. -/
theorem clearLines_result (f f' : Field) (n : Int) (h : f.ClearLines = some (f', n)) :
    f'.Width = f.Width ∧ f'.Height = f.Height ∧ f'.Matrix.length = f.Matrix.length ∧
    (∀ a ∈ f'.Matrix, a ∈ f.Matrix ∨ a = 0) ∧ 0 ≤ n := by
  unfold Field.ClearLines at h
  cases hr : Field.ClearLines.loop f.Width f.Height.toNat f.Matrix 0 with
  | none => simp [hr] at h
  | some r =>
    obtain ⟨m, c⟩ := r
    simp only [hr, Option.some.injEq, Prod.mk.injEq] at h
    obtain ⟨rfl, rfl⟩ := h
    obtain ⟨hl, hm, hc⟩ := clearLines_loop_mem _ _ _ _ _ _ hr
    exact ⟨rfl, rfl, hl, hm, hc⟩

/-! ## The counter of cleared lines -/

/-- The three outcomes of `Nudge`. -/
theorem nudge_cases (gs gs' : GameState) (delta : Int) (vertical : Bool) (draw : Nat)
    (h : gs.Nudge delta vertical draw = some gs') :
    (gs.Field.CanPlace (gs.nudged delta vertical) = some true ∧
      gs' = { gs with Block := gs.nudged delta vertical }) ∨
    (gs.Field.CanPlace (gs.nudged delta vertical) = some false ∧
      ¬ (vertical = true ∧ delta > 0) ∧ gs' = gs) ∨
    (gs.Field.CanPlace (gs.nudged delta vertical) = some false ∧
      (vertical = true ∧ delta > 0) ∧
      ∃ f, gs.Field.DrawBlock gs.Block = some f ∧
        gs' = GameState.centerBlock { gs with Field := f, Block := NewBlock draw }) := by
  unfold GameState.Nudge at h
  cases hc : gs.Field.CanPlace (gs.nudged delta vertical) with
  | none => simp [hc] at h
  | some v =>
    cases v with
    | true =>
      simp only [hc, Option.some.injEq] at h
      exact Or.inl ⟨rfl, h.symm⟩
    | false =>
      simp only [hc] at h
      by_cases hl : vertical = true ∧ delta > 0
      · simp only [hl, and_self, if_true, Block.Copy_eq] at h
        cases hd : gs.Field.DrawBlock gs.Block with
        | none => simp [hd] at h
        | some f =>
          simp only [hd, Option.some.injEq] at h
          exact Or.inr (Or.inr ⟨rfl, hl, f, rfl, h.symm⟩)
      · simp only [hl, if_false, Option.some.injEq] at h
        exact Or.inr (Or.inl ⟨rfl, hl, h.symm⟩)

theorem nudge_linesCleared (gs gs' : GameState) (delta : Int) (vertical : Bool) (draw : Nat)
    (h : gs.Nudge delta vertical draw = some gs') : gs'.LinesCleared = gs.LinesCleared := by
  rcases nudge_cases gs gs' delta vertical draw h with ⟨_, rfl⟩ | ⟨_, _, rfl⟩ | ⟨_, _, f, _, rfl⟩
  · rfl
  · rfl
  · rfl

theorem rotateBlock_linesCleared (gs gs' : GameState) (h : gs.RotateBlock = some gs') :
    gs'.LinesCleared = gs.LinesCleared := by
  obtain ⟨rot, _, hcase⟩ := rotateBlock_cases gs gs' h
  rcases hcase with ⟨_, rfl⟩ | ⟨_, rfl⟩
  · rfl
  · rfl

/-- What `ClearCompleteLines` returns. -/
theorem clearCompleteLines_result (gs gs' : GameState) (h : gs.ClearCompleteLines = some gs') :
    ∃ f n, gs.Field.ClearLines = some (f, n) ∧ 0 ≤ n ∧
      gs' = { gs with Field := f, LinesCleared := gs.LinesCleared + n } := by
  unfold GameState.ClearCompleteLines at h
  cases hr : gs.Field.ClearLines with
  | none => simp [hr] at h
  | some r =>
    obtain ⟨f, n⟩ := r
    simp only [hr, Option.some.injEq] at h
    exact ⟨f, n, rfl, (clearLines_result gs.Field f n hr).2.2.2.2, h.symm⟩

theorem step_linesCleared (gs gs' : GameState) (op : Op) (h : gs.step op = some gs') :
    gs.LinesCleared ≤ gs'.LinesCleared := by
  cases op with
  | nudge delta vertical draw =>
    exact le_of_eq (nudge_linesCleared gs gs' delta vertical draw h).symm
  | rotate => exact le_of_eq (rotateBlock_linesCleared gs gs' h).symm
  | clear =>
    obtain ⟨f, n, _, hn, rfl⟩ := clearCompleteLines_result gs gs' h
    simp only
    omega

theorem run_linesCleared :
    ∀ (ops : List Op) (gs gs' : GameState), gs.run ops = some gs' →
      gs.LinesCleared ≤ gs'.LinesCleared := by
  intro ops
  induction ops with
  | nil =>
    intro gs gs' h
    simp only [GameState.run, Option.some.injEq] at h
    subst h
    exact le_refl _
  | cons op ops ih =>
    intro gs gs' h
    simp only [GameState.run] at h
    cases hs : gs.step op with
    | none => simp [hs] at h
    | some g1 =>
      simp only [hs] at h
      exact le_trans (step_linesCleared gs g1 op hs) (ih g1 gs' h)

theorem new_result (w h : Int) (draw : Nat) (gs : GameState) (h0 : New w h draw = some gs) :
    0 ≤ w * h ∧
    gs = GameState.centerBlock
      { Field := { Width := w, Height := h, Matrix := List.replicate (w * h).toNat 0 },
        Block := NewBlock draw, LinesCleared := 0 } := by
  unfold New NewField at h0
  by_cases hneg : w * h < 0
  · simp [hneg] at h0
  · simp only [hneg, if_false, Option.some.injEq] at h0
    exact ⟨by omega, h0.symm⟩

/-- C14. `LinesCleared` never decreases: it is 0 after `New`;
`ClearCompleteLines` sets it to its old value plus the result of
`Field.ClearLines` on the current field, which is not negative (and
`ClearCompleteLines` returns on every field of positive width with
`Width * Height` cells); `Nudge` and `RotateBlock` leave it unchanged; so
along every sequence of calls the counter at the end is at least the counter
at the start, and at least 0 when the start is `New`. -/
theorem LinesCleared_monotone :
    (∀ (w h : Int) (draw : Nat) (gs : GameState), New w h draw = some gs →
      gs.LinesCleared = 0) ∧
    (∀ gs gs' : GameState, gs.ClearCompleteLines = some gs' →
      ∃ f n, gs.Field.ClearLines = some (f, n) ∧ 0 ≤ n ∧
        gs'.LinesCleared = gs.LinesCleared + n ∧ gs'.Field = f) ∧
    (∀ gs : GameState, 0 < gs.Field.Width →
      (gs.Field.Matrix.length : Int) = gs.Field.Width * gs.Field.Height →
      ∃ gs', gs.ClearCompleteLines = some gs') ∧
    (∀ (gs gs' : GameState) (delta : Int) (vertical : Bool) (draw : Nat),
      gs.Nudge delta vertical draw = some gs' → gs'.LinesCleared = gs.LinesCleared) ∧
    (∀ gs gs' : GameState, gs.RotateBlock = some gs' →
      gs'.LinesCleared = gs.LinesCleared) ∧
    (∀ (gs gs' : GameState) (ops : List Op), gs.run ops = some gs' →
      gs.LinesCleared ≤ gs'.LinesCleared) ∧
    (∀ (w h : Int) (draw : Nat) (ops : List Op) (gs0 gs' : GameState),
      New w h draw = some gs0 → gs0.run ops = some gs' → 0 ≤ gs'.LinesCleared) := by
  have hnew : ∀ (w h : Int) (draw : Nat) (gs : GameState), New w h draw = some gs →
      gs.LinesCleared = 0 := by
    intro w h draw gs h0
    obtain ⟨_, rfl⟩ := new_result w h draw gs h0
    rfl
  refine ⟨hnew, ?_, ?_, nudge_linesCleared, rotateBlock_linesCleared,
    fun gs gs' ops h => run_linesCleared ops gs gs' h, ?_⟩
  · intro gs gs' h
    obtain ⟨f, n, h1, h2, rfl⟩ := clearCompleteLines_result gs gs' h
    exact ⟨f, n, h1, h2, rfl, rfl⟩
  · intro gs hw hlen
    obtain ⟨⟨f, n⟩, hr⟩ := clearLines_total gs.Field hw hlen
    unfold GameState.ClearCompleteLines
    rw [hr]
    exact ⟨_, rfl⟩
  · intro w h draw ops gs0 gs' h0 hr
    have := run_linesCleared ops gs0 gs' hr
    rw [hnew w h draw gs0 h0] at this
    exact this

/-- C14, on a 3 x 3 field: a new game, the T shape dropped to the floor and
locked, lines cleared. -/
theorem LinesCleared_monotone_witness :
    New 3 3 0 = some ⟨⟨3, 3, List.replicate 9 0⟩, ⟨3, 3, 0, 0, [0, 1, 0, 1, 1, 1, 0, 0, 0]⟩, 0⟩ ∧
    GameState.run ⟨⟨3, 3, List.replicate 9 0⟩, ⟨3, 3, 0, 0, [0, 1, 0, 1, 1, 1, 0, 0, 0]⟩, 0⟩
        [Op.nudge 1 true 0, Op.nudge 1 true 1, Op.clear]
      = some ⟨⟨3, 3, [0, 0, 0, 0, 0, 0, 0, 1, 0]⟩, ⟨2, 2, 0, 0, [2, 2, 2, 2]⟩, 1⟩ ∧
    (0 : Int) ≤ 1 ∧
    (0 : Int) ≤ (1 : Int) :=
  ⟨by decide, by decide,
    LinesCleared_monotone.2.2.2.2.2.1
      ⟨⟨3, 3, List.replicate 9 0⟩, ⟨3, 3, 0, 0, [0, 1, 0, 1, 1, 1, 0, 0, 0]⟩, 0⟩
      ⟨⟨3, 3, [0, 0, 0, 0, 0, 0, 0, 1, 0]⟩, ⟨2, 2, 0, 0, [2, 2, 2, 2]⟩, 1⟩
      [Op.nudge 1 true 0, Op.nudge 1 true 1, Op.clear] (by decide),
    LinesCleared_monotone.2.2.2.2.2.2 3 3 0 [Op.nudge 1 true 0, Op.nudge 1 true 1, Op.clear]
      ⟨⟨3, 3, List.replicate 9 0⟩, ⟨3, 3, 0, 0, [0, 1, 0, 1, 1, 1, 0, 0, 0]⟩, 0⟩
      ⟨⟨3, 3, [0, 0, 0, 0, 0, 0, 0, 1, 0]⟩, ⟨2, 2, 0, 0, [2, 2, 2, 2]⟩, 1⟩
      (by decide) (by decide)⟩

/-! ## The grid invariant -/

theorem getElem?_mem (m : List Int) (i : Nat) (c : Int) (h : m[i]? = some c) : c ∈ m :=
  List.mem_iff_getElem?.mpr ⟨i, h⟩

/-- The `DrawBlock` loop leaves only old field values and block values. -/
theorem drawBlock_loop_mem (f : Field) (b : Block) :
    ∀ (n i : Nat) (m m' : List Int), Field.DrawBlock.loop f b n i m = some m' →
      ∀ a ∈ m', a ∈ m ∨ a ∈ b.Matrix := by
  intro n
  induction n with
  | zero =>
    intro i m m' h
    simp only [Field.DrawBlock.loop, Option.some.injEq] at h
    subst h
    exact fun _ ha => Or.inl ha
  | succ n ih =>
    intro i m m' h
    unfold Field.DrawBlock.loop at h
    by_cases hW : b.Width = 0
    · simp [hW] at h
    · simp only [hW, if_false] at h
      cases hg : b.Matrix[i]? with
      | none => simp [hg] at h
      | some c =>
        simp only [hg] at h
        by_cases hc : c = 0
        · simp only [hc, ne_eq, not_true_eq_false, if_false] at h
          exact ih (i + 1) m m' h
        · simp only [ne_eq, hc, not_false_eq_true, if_true] at h
          cases hw : writeAt m ((Int.tdiv i b.Width + b.Y) * f.Width +
              (Int.tmod i b.Width + b.X)) c with
          | none => simp [hw] at h
          | some m1 =>
            simp only [hw] at h
            intro a ha
            rcases ih (i + 1) m1 m' h a ha with h1 | h1
            · rcases (writeAt_mem _ _ _ _ hw).2 a h1 with h2 | h2
              · exact Or.inl h2
              · rw [h2]; exact Or.inr (getElem?_mem _ _ _ hg)
            · exact Or.inr h1

/-- What `DrawBlock` returns, placeable block or not. -/
theorem drawBlock_result (f f' : Field) (b : Block) (h : f.DrawBlock b = some f') :
    f'.Width = f.Width ∧ f'.Height = f.Height ∧ f'.Matrix.length = f.Matrix.length ∧
    ∀ a ∈ f'.Matrix, a ∈ f.Matrix ∨ a ∈ b.Matrix := by
  unfold Field.DrawBlock at h
  cases hm : Field.DrawBlock.loop f b b.Matrix.length 0 f.Matrix with
  | none => simp [hm] at h
  | some m =>
    simp only [hm, Option.some.injEq] at h
    subst h
    exact ⟨rfl, rfl, (drawBlock_loop_frame f b _ _ _ _ hm).1, drawBlock_loop_mem f b _ _ _ _ hm⟩

/-- The `Rotate` loop leaves only values of the two matrices it works on. -/
theorem rotate_loop_mem (b : Block) (matrix : List Int) :
    ∀ (n i : Nat) (m m' : List Int), Block.Rotate.loop b matrix n i m = some m' →
      ∀ a ∈ m', a ∈ m ∨ a ∈ matrix := by
  intro n
  induction n with
  | zero =>
    intro i m m' h
    simp only [Block.Rotate.loop, Option.some.injEq] at h
    subst h
    exact fun _ ha => Or.inl ha
  | succ n ih =>
    intro i m m' h
    unfold Block.Rotate.loop at h
    by_cases hW : b.Width = 0
    · simp [hW] at h
    · simp only [hW, if_false] at h
      cases hg : matrix[i]? with
      | none => simp [hg] at h
      | some v =>
        simp only [hg] at h
        cases hw : writeAt m (Int.tmod i b.Width * b.Height +
            ((b.Height - 1) - Int.tdiv i b.Width)) v with
        | none => simp [hw] at h
        | some m1 =>
          simp only [hw] at h
          intro a ha
          rcases ih (i + 1) m1 m' h a ha with h1 | h1
          · rcases (writeAt_mem _ _ _ _ hw).2 a h1 with h2 | h2
            · exact Or.inl h2
            · rw [h2]; exact Or.inr (getElem?_mem _ _ _ hg)
          · exact Or.inr h1

theorem rotate_mem (b b' : Block) (h : b.Rotate = some b') : ∀ a ∈ b'.Matrix, a ∈ b.Matrix := by
  unfold Block.Rotate at h
  cases hm : Block.Rotate.loop b b.Matrix b.Matrix.length 0 b.Matrix with
  | none => simp [hm] at h
  | some m =>
    simp only [hm, Option.some.injEq] at h
    subst h
    intro a ha
    rcases rotate_loop_mem b b.Matrix _ _ _ _ hm a ha with h1 | h1
    · exact h1
    · exact h1

/-- Every cell of a spawned shape is 0 or a colour code in 1..7. -/
theorem newBlock_cells (draw : Nat) : ∀ a ∈ (NewBlock draw).Matrix, 0 ≤ a ∧ a ≤ 7 := by
  unfold NewBlock
  split <;> simp

theorem nudged_matrix (gs : GameState) (delta : Int) (vertical : Bool) :
    (gs.nudged delta vertical).Matrix = gs.Block.Matrix := by
  cases vertical <;> rfl

theorem step_gridOK (w h : Int) (gs gs' : GameState) (op : Op) (hinv : gs.gridOK w h)
    (hs : gs.step op = some gs') : gs'.gridOK w h := by
  obtain ⟨i1, i2, i3, i4, i5⟩ := hinv
  cases op with
  | nudge delta vertical draw =>
    rcases nudge_cases gs gs' delta vertical draw hs with
      ⟨_, rfl⟩ | ⟨_, _, rfl⟩ | ⟨_, _, f, hf, rfl⟩
    · refine ⟨i1, i2, i3, i4, ?_⟩
      simp only [nudged_matrix]
      exact i5
    · exact ⟨i1, i2, i3, i4, i5⟩
    · obtain ⟨d1, d2, d3, d4⟩ := drawBlock_result gs.Field f gs.Block hf
      refine ⟨d1.trans i1, d2.trans i2, ?_, ?_, ?_⟩
      · show (f.Matrix.length : Int) = w * h
        rw [d3]; exact i3
      · intro a ha
        rcases d4 a ha with h1 | h1
        · exact i4 a h1
        · exact i5 a h1
      · exact newBlock_cells draw
  | rotate =>
    obtain ⟨rot, hrot, hcase⟩ := rotateBlock_cases gs gs' hs
    rw [Block.Copy_eq] at hrot
    rcases hcase with ⟨_, rfl⟩ | ⟨_, rfl⟩
    · exact ⟨i1, i2, i3, i4, fun a ha => i5 a (rotate_mem _ _ hrot a ha)⟩
    · exact ⟨i1, i2, i3, i4, i5⟩
  | clear =>
    obtain ⟨f, n, hcl, _, rfl⟩ := clearCompleteLines_result gs gs' hs
    obtain ⟨c1, c2, c3, c4, _⟩ := clearLines_result gs.Field f n hcl
    refine ⟨c1.trans i1, c2.trans i2, ?_, ?_, i5⟩
    · show (f.Matrix.length : Int) = w * h
      rw [c3]; exact i3
    · intro a ha
      rcases c4 a ha with h1 | h1
      · exact i4 a h1
      · rw [h1]; exact ⟨le_refl _, by decide⟩

theorem run_gridOK (w h : Int) :
    ∀ (ops : List Op) (gs gs' : GameState), gs.gridOK w h → gs.run ops = some gs' →
      gs'.gridOK w h := by
  intro ops
  induction ops with
  | nil =>
    intro gs gs' hinv hr
    simp only [GameState.run, Option.some.injEq] at hr
    subst hr
    exact hinv
  | cons op ops ih =>
    intro gs gs' hinv hr
    simp only [GameState.run] at hr
    cases hs : gs.step op with
    | none => simp [hs] at hr
    | some g1 =>
      simp only [hs] at hr
      exact ih g1 gs' (step_gridOK w h gs g1 op hinv hs) hr

theorem new_gridOK (w h : Int) (draw : Nat) (gs : GameState) (h0 : New w h draw = some gs) :
    gs.gridOK w h := by
  obtain ⟨hnn, rfl⟩ := new_result w h draw gs h0
  refine ⟨rfl, rfl, ?_, ?_, newBlock_cells draw⟩
  · simp only [GameState.centerBlock, List.length_replicate]
    exact Int.toNat_of_nonneg hnn
  · intro a ha
    simp only [GameState.centerBlock] at ha
    rw [List.eq_of_mem_replicate ha]
    exact ⟨le_refl _, by decide⟩

/-- C15. In every game state reached from `New(w, h)` (for `w, h > 0`, and for
any other `w`, `h` for which `New` returns) by a sequence of `Nudge`,
`RotateBlock` and `ClearCompleteLines` calls that all return (no out-of-range
access), with any draws, the field has `Width = w`, `Height = h`, a matrix of
`Width * Height` cells, and every cell is 0 or a colour code in 1..7. -/
theorem Field_invariant (w h : Int) (draw : Nat) (ops : List Op) (gs0 gs : GameState)
    (h0 : New w h draw = some gs0) (hr : gs0.run ops = some gs) :
    gs.Field.Width = w ∧ gs.Field.Height = h ∧
    (gs.Field.Matrix.length : Int) = gs.Field.Width * gs.Field.Height ∧
    ∀ a ∈ gs.Field.Matrix, a = 0 ∨ (1 ≤ a ∧ a ≤ 7) := by
  obtain ⟨i1, i2, i3, i4, -⟩ := run_gridOK w h ops gs0 gs (new_gridOK w h draw gs0 h0) hr
  refine ⟨i1, i2, by rw [i1, i2]; exact i3, fun a ha => ?_⟩
  have := i4 a ha
  omega

/-- C15, on a 3 x 3 field: a new game, the T shape dropped to the floor and
locked, lines cleared. -/
theorem Field_invariant_witness :
    (New 3 3 0 = some ⟨⟨3, 3, List.replicate 9 0⟩,
        ⟨3, 3, 0, 0, [0, 1, 0, 1, 1, 1, 0, 0, 0]⟩, 0⟩ ∧
      GameState.run ⟨⟨3, 3, List.replicate 9 0⟩, ⟨3, 3, 0, 0, [0, 1, 0, 1, 1, 1, 0, 0, 0]⟩, 0⟩
          [Op.nudge 1 true 0, Op.nudge 1 true 1, Op.clear]
        = some ⟨⟨3, 3, [0, 0, 0, 0, 0, 0, 0, 1, 0]⟩, ⟨2, 2, 0, 0, [2, 2, 2, 2]⟩, 1⟩) ∧
    ((3 : Int) = 3 ∧ (3 : Int) = 3 ∧
      ((([0, 0, 0, 0, 0, 0, 0, 1, 0] : List Int).length : Int) = 3 * 3) ∧
      ∀ a ∈ ([0, 0, 0, 0, 0, 0, 0, 1, 0] : List Int), a = 0 ∨ (1 ≤ a ∧ a ≤ 7)) :=
  ⟨⟨by decide, by decide⟩,
    Field_invariant 3 3 0 [Op.nudge 1 true 0, Op.nudge 1 true 1, Op.clear]
      ⟨⟨3, 3, List.replicate 9 0⟩, ⟨3, 3, 0, 0, [0, 1, 0, 1, 1, 1, 0, 0, 0]⟩, 0⟩
      ⟨⟨3, 3, [0, 0, 0, 0, 0, 0, 0, 1, 0]⟩, ⟨2, 2, 0, 0, [2, 2, 2, 2]⟩, 1⟩
      (by decide) (by decide)⟩

/-! ## Spawning -/

/-- C16. For `w, h > 0` and every draw in 0..6, `New(w, h)` returns a game
state whose field is `w` x `h` with `w * h` cells, all 0, whose
`LinesCleared` is 0 and whose block is the drawn shape at `Y = 0`,
`X = w/2 - Block.Width/2`; the block that `Nudge` spawns when it locks is the
drawn shape at `Y = 0`, `X = Field.Width/2 - Block.Width/2` (Go's truncating
division, which is the usual one when `Field.Width >= 0`). -/
theorem New_spawn :
    (∀ (w h : Int) (draw : Nat), 0 < w → 0 < h → draw < 7 →
      ∃ gs, New w h draw = some gs ∧
        gs.Field.Width = w ∧ gs.Field.Height = h ∧
        (gs.Field.Matrix.length : Int) = w * h ∧ (∀ a ∈ gs.Field.Matrix, a = 0) ∧
        gs.LinesCleared = 0 ∧
        gs.Block.Matrix = (NewBlock draw).Matrix ∧ gs.Block.Width = (NewBlock draw).Width ∧
        gs.Block.Height = (NewBlock draw).Height ∧
        gs.Block.Y = 0 ∧ gs.Block.X = w / 2 - gs.Block.Width / 2) ∧
    (∀ (gs gs' : GameState) (delta : Int) (draw : Nat), 0 < delta →
      gs.Field.CanPlace (gs.nudged delta true) = some false →
      gs.Nudge delta true draw = some gs' →
      gs'.Block.Matrix = (NewBlock draw).Matrix ∧ gs'.Block.Width = (NewBlock draw).Width ∧
      gs'.Block.Height = (NewBlock draw).Height ∧
      gs'.Block.Y = 0 ∧
      gs'.Block.X = Int.tdiv gs'.Field.Width 2 - Int.tdiv gs'.Block.Width 2 ∧
      (0 ≤ gs'.Field.Width → draw < 7 →
        gs'.Block.X = gs'.Field.Width / 2 - gs'.Block.Width / 2)) := by
  have hy : ∀ draw, (NewBlock draw).Y = 0 := by
    intro draw; unfold NewBlock; split <;> rfl
  have hbw : ∀ draw, 0 ≤ (NewBlock draw).Width := by
    intro draw; unfold NewBlock; split <;> simp
  constructor
  · intro w h draw hw hh _
    have hnn : ¬ (w * h < 0) := by
      have := mul_pos hw hh
      omega
    refine ⟨GameState.centerBlock
      { Field := { Width := w, Height := h, Matrix := List.replicate (w * h).toNat 0 },
        Block := NewBlock draw, LinesCleared := 0 }, ?_, rfl, rfl, ?_, ?_, rfl, rfl, rfl, rfl,
      hy draw, ?_⟩
    · unfold New NewField
      simp only [hnn, if_false]
    · simp only [GameState.centerBlock, List.length_replicate]
      exact Int.toNat_of_nonneg (by omega)
    · intro a ha
      simp only [GameState.centerBlock] at ha
      exact List.eq_of_mem_replicate ha
    · simp only [GameState.centerBlock]
      rw [Int.tdiv_eq_ediv (le_of_lt hw) (by decide),
        Int.tdiv_eq_ediv (hbw draw) (by decide)]
  · intro gs gs' delta draw hd hc h
    rcases nudge_cases gs gs' delta true draw h with ⟨h1, _⟩ | ⟨_, h1, _⟩ | ⟨_, _, f, _, rfl⟩
    · rw [hc] at h1; simp at h1
    · exact absurd ⟨rfl, hd⟩ h1
    · refine ⟨rfl, rfl, rfl, hy draw, rfl, ?_⟩
      intro hw _
      simp only [GameState.centerBlock] at hw ⊢
      rw [Int.tdiv_eq_ediv hw (by decide), Int.tdiv_eq_ediv (hbw draw) (by decide)]

/-- C16, at `New(10, 20)` with the square, and at the lock of the square on
the floor of an empty 4 x 4 field with the bar drawn next. -/
theorem New_spawn_witness :
    ((0 : Int) < 10 ∧ (0 : Int) < 20 ∧ 1 < 7) ∧
    (∃ gs, New 10 20 1 = some gs ∧
      gs.Field.Width = 10 ∧ gs.Field.Height = 20 ∧
      (gs.Field.Matrix.length : Int) = 10 * 20 ∧ (∀ a ∈ gs.Field.Matrix, a = 0) ∧
      gs.LinesCleared = 0 ∧
      gs.Block.Matrix = (NewBlock 1).Matrix ∧ gs.Block.Width = (NewBlock 1).Width ∧
      gs.Block.Height = (NewBlock 1).Height ∧
      gs.Block.Y = 0 ∧ gs.Block.X = 10 / 2 - gs.Block.Width / 2) ∧
    ((0 : Int) < 1 ∧
      Field.CanPlace ⟨4, 4, List.replicate 16 0⟩
        (GameState.nudged ⟨⟨4, 4, List.replicate 16 0⟩, ⟨2, 2, 1, 2, [2, 2, 2, 2]⟩, 0⟩ 1 true)
        = some false ∧
      GameState.Nudge ⟨⟨4, 4, List.replicate 16 0⟩, ⟨2, 2, 1, 2, [2, 2, 2, 2]⟩, 0⟩ 1 true 4
        = some ⟨⟨4, 4, [0, 0, 0, 0, 0, 0, 0, 0, 0, 2, 2, 0, 0, 2, 2, 0]⟩,
            ⟨4, 4, 0, 0, [0, 0, 0, 0, 5, 5, 5, 5, 0, 0, 0, 0, 0, 0, 0, 0]⟩, 0⟩) ∧
    ((0 : Int) = 0 ∧ (0 : Int) = Int.tdiv 4 2 - Int.tdiv 4 2) :=
  ⟨⟨by decide, by decide, by decide⟩,
    New_spawn.1 10 20 1 (by decide) (by decide) (by decide),
    ⟨by decide, by decide, by decide⟩,
    ⟨(New_spawn.2 ⟨⟨4, 4, List.replicate 16 0⟩, ⟨2, 2, 1, 2, [2, 2, 2, 2]⟩, 0⟩
        ⟨⟨4, 4, [0, 0, 0, 0, 0, 0, 0, 0, 0, 2, 2, 0, 0, 2, 2, 0]⟩,
          ⟨4, 4, 0, 0, [0, 0, 0, 0, 5, 5, 5, 5, 0, 0, 0, 0, 0, 0, 0, 0]⟩, 0⟩
        1 4 (by decide) (by decide) (by decide)).2.2.2.1,
      (New_spawn.2 ⟨⟨4, 4, List.replicate 16 0⟩, ⟨2, 2, 1, 2, [2, 2, 2, 2]⟩, 0⟩
        ⟨⟨4, 4, [0, 0, 0, 0, 0, 0, 0, 0, 0, 2, 2, 0, 0, 2, 2, 0]⟩,
          ⟨4, 4, 0, 0, [0, 0, 0, 0, 5, 5, 5, 5, 0, 0, 0, 0, 0, 0, 0, 0]⟩, 0⟩
        1 4 (by decide) (by decide) (by decide)).2.2.2.2.1⟩⟩

/-! ## The shape table -/

/-- C18. For every draw `k` in 0..6 the block of `NewBlock` has `X = 0`,
`Y = 0`, a square bounding box with `Width = Height` in {2, 3, 4},
`Width * Height` cells, exactly four non-zero cells, all equal to the colour
code `k + 1` and forming one edge-connected piece; so the seven shapes carry
the seven colour codes 1..7; and no two of the seven shapes are equal up to
rotation and translation. -/
theorem NewBlock_table :
    (∀ k, k < 7 →
      (NewBlock k).X = 0 ∧ (NewBlock k).Y = 0 ∧
      (NewBlock k).Width = (NewBlock k).Height ∧
      ((NewBlock k).Width = 2 ∨ (NewBlock k).Width = 3 ∨ (NewBlock k).Width = 4) ∧
      ((NewBlock k).Matrix.length : Int) = (NewBlock k).Width * (NewBlock k).Height ∧
      (NewBlock k).Matrix.countP (fun c => c != 0) = 4 ∧
      (∀ c ∈ (NewBlock k).Matrix, c ≠ 0 → c = (k : Int) + 1) ∧
      (NewBlock k).cells.length = 4 ∧
      edgeConnected (NewBlock k).cells = true) ∧
    (∀ k, k < 7 → ∀ k', k' < 7 → k ≠ k' →
      sameShape (NewBlock k) (NewBlock k') = false) := by
  decide

/-- C18, at the first shape, and at the pair of the two mirror-image shapes
2 and 3. -/
theorem NewBlock_table_witness :
    (0 < 7 ∧ 2 < 7 ∧ 3 < 7 ∧ 2 ≠ 3) ∧
    ((NewBlock 0).X = 0 ∧ (NewBlock 0).Y = 0 ∧
      (NewBlock 0).Width = (NewBlock 0).Height ∧
      ((NewBlock 0).Width = 2 ∨ (NewBlock 0).Width = 3 ∨ (NewBlock 0).Width = 4) ∧
      ((NewBlock 0).Matrix.length : Int) = (NewBlock 0).Width * (NewBlock 0).Height ∧
      (NewBlock 0).Matrix.countP (fun c => c != 0) = 4 ∧
      (∀ c ∈ (NewBlock 0).Matrix, c ≠ 0 → c = ((0 : Nat) : Int) + 1) ∧
      (NewBlock 0).cells.length = 4 ∧
      edgeConnected (NewBlock 0).cells = true) ∧
    sameShape (NewBlock 2) (NewBlock 3) = false :=
  ⟨⟨by decide, by decide, by decide, by decide⟩,
    NewBlock_table.1 0 (by decide),
    NewBlock_table.2 2 (by decide) 3 (by decide) (by decide)⟩

/-! ## Gravity on an empty field -/

/-- A statement about every cell of a concrete matrix follows from the same
statement for the indices below its length. -/
theorem forall_cells_of_bounded (m : List Int) (P : Nat → Int → Prop)
    (h : ∀ i, i < m.length → P i (m[i]?.getD 0)) :
    ∀ (i : Nat) (c : Int), m[i]? = some c → P i c := by
  intro i c hic
  have hi : i < m.length := by
    by_contra hcon
    rw [List.getElem?_eq_none (by omega)] at hic
    simp at hic
  have := h i hi
  rw [hic] at this
  exact this

/-- On an all-zero field, a block that is placeable at `Y = 0` is placeable at
every `Y = y >= 0` that keeps its lowest non-zero row `r` inside the grid. -/
theorem canPlace_lowered (f : Field) (b : Block) (r y : Int)
    (hz : ∀ a ∈ f.Matrix, a = 0)
    (hlen : (f.Matrix.length : Int) = f.Width * f.Height)
    (hY : b.Y = 0) (hp : f.CanPlace b = some true) (hbw : b.Width ≠ 0)
    (hmax : ∀ (i : Nat) (c : Int), b.Matrix[i]? = some c → c ≠ 0 → Int.tdiv i b.Width ≤ r)
    (hy : 0 ≤ y) (hyr : y + r < f.Height) :
    f.CanPlace { b with Y := y } = some true := by
  obtain ⟨_, hfree⟩ := cellFree_of_canPlace f b hp
  unfold Field.CanPlace
  apply (canPlace_loop_true f { b with Y := y } hbw b.Matrix.length 0 (by
    show 0 + b.Matrix.length ≤ b.Matrix.length
    omega)).2
  intro k _ _ c hkc hc
  have hA := hfree k c hkc hc
  have hM := hmax k c hkc hc
  rw [hY] at hA
  have hx0 := hA.1
  have hx1 := hA.2.1
  have hy0 := hA.2.2.1
  show 0 ≤ Int.tmod k b.Width + b.X ∧ Int.tmod k b.Width + b.X < f.Width ∧
    0 ≤ Int.tdiv k b.Width + y ∧ Int.tdiv k b.Width + y < f.Height ∧
    readAt f.Matrix ((Int.tdiv k b.Width + y) * f.Width + (Int.tmod k b.Width + b.X)) = some 0
  refine ⟨hx0, hx1, by omega, by omega, ?_⟩
  have hr := index_in_range f.Width f.Height (Int.tmod k b.Width + b.X)
    (Int.tdiv k b.Width + y) hx0 hx1 (by omega) (by omega)
  obtain ⟨v, hv⟩ := readAt_isSome_of_lt f.Matrix _ hr.1 (by rw [hlen]; exact hr.2)
  rw [hv, hz v (readAt_mem _ _ _ hv)]

/-- A block whose lowest non-zero row would fall below the grid is rejected. -/
theorem canPlace_below_floor (f : Field) (b : Block) (r y : Int)
    (hlen : (f.Matrix.length : Int) = f.Width * f.Height) (hbw : b.Width ≠ 0)
    (hatt : ∃ (i : Nat) (c : Int), b.Matrix[i]? = some c ∧ c ≠ 0 ∧ Int.tdiv i b.Width = r)
    (hyr : f.Height ≤ y + r) :
    f.CanPlace { b with Y := y } = some false := by
  rcases canPlace_loop_total f { b with Y := y } hbw hlen b.Matrix.length 0 (by
    show 0 + b.Matrix.length ≤ b.Matrix.length
    omega) with h | h
  · exfalso
    have hp : f.CanPlace { b with Y := y } = some true := h
    obtain ⟨_, hfree⟩ := cellFree_of_canPlace f { b with Y := y } hp
    obtain ⟨i, c, hic, hc, hrow⟩ := hatt
    have hA := hfree i c hic hc
    have : Int.tdiv i b.Width + y < f.Height := hA.2.2.2.1
    omega
  · exact h

theorem nudged_down (f : Field) (b : Block) (lc : Int) :
    GameState.nudged ⟨f, b, lc⟩ 1 true = { b with Y := b.Y + 1 } := by
  cases b; rfl

/-- The accepted part of the descent. -/
theorem run_descent (f : Field) (b : Block) (r lc : Int)
    (hz : ∀ a ∈ f.Matrix, a = 0)
    (hlen : (f.Matrix.length : Int) = f.Width * f.Height)
    (hY : b.Y = 0) (hp : f.CanPlace b = some true) (hbw : b.Width ≠ 0)
    (hmax : ∀ (i : Nat) (c : Int), b.Matrix[i]? = some c → c ≠ 0 → Int.tdiv i b.Width ≤ r) :
    ∀ (ops : List Op) (y : Int), allNudgeDown ops → 0 ≤ y →
      y + (ops.length : Int) + r < f.Height →
      GameState.run ⟨f, { b with Y := y }, lc⟩ ops
        = some ⟨f, { b with Y := y + (ops.length : Int) }, lc⟩ := by
  intro ops
  induction ops with
  | nil =>
    intro y _ _ _
    simp only [GameState.run, List.length_nil, Nat.cast_zero, add_zero]
  | cons op ops ih =>
    intro y hall hy hyr
    obtain ⟨d, rfl⟩ := hall _ (List.mem_cons_self _ _)
    have hall' : allNudgeDown ops := fun o ho => hall o (List.mem_cons_of_mem _ ho)
    simp only [List.length_cons, Nat.cast_add, Nat.cast_one] at hyr ⊢
    have hstep : GameState.Nudge ⟨f, { b with Y := y }, lc⟩ 1 true d
        = some ⟨f, { b with Y := y + 1 }, lc⟩ := by
      unfold GameState.Nudge
      simp only [nudged_down]
      rw [canPlace_lowered f b r (y + 1) hz hlen hY hp hbw hmax (by omega) (by omega)]
    simp only [GameState.run, GameState.step, hstep]
    rw [ih (y + 1) hall' (by omega) (by omega)]
    have : y + 1 + (ops.length : Int) = y + ((ops.length : Int) + 1) := by ring
    rw [this]

/-- The whole descent of a block from `Y = 0` on an all-zero field: the
nudges are accepted while the lowest non-zero row `r` stays inside the grid,
and the next nudge locks the block with that row on the last grid row. -/
theorem descent_and_lock (f : Field) (b : Block) (r lc : Int)
    (hz : ∀ a ∈ f.Matrix, a = 0)
    (hlen : (f.Matrix.length : Int) = f.Width * f.Height)
    (hY : b.Y = 0) (hp : f.CanPlace b = some true)
    (hmax : ∀ (i : Nat) (c : Int), b.Matrix[i]? = some c → c ≠ 0 → Int.tdiv i b.Width ≤ r)
    (hatt : ∃ (i : Nat) (c : Int), b.Matrix[i]? = some c ∧ c ≠ 0 ∧ Int.tdiv i b.Width = r) :
    0 ≤ f.Height - 1 - r ∧
    (∀ ops : List Op, allNudgeDown ops → (ops.length : Int) ≤ f.Height - 1 - r →
      GameState.run ⟨f, b, lc⟩ ops = some ⟨f, { b with Y := (ops.length : Int) }, lc⟩) ∧
    (∀ (ops : List Op) (d : Nat), allNudgeDown ops → (ops.length : Int) = f.Height - 1 - r →
      ∃ gs', GameState.run ⟨f, b, lc⟩ (ops ++ [Op.nudge 1 true d]) = some gs' ∧
        gs'.Field.Width = f.Width ∧ gs'.Field.Height = f.Height ∧
        gs'.Field.Matrix.length = f.Matrix.length ∧
        (∀ (i : Nat) (c : Int), b.Matrix[i]? = some c → c ≠ 0 →
          readAt gs'.Field.Matrix
            ((Int.tdiv i b.Width + (f.Height - 1 - r)) * f.Width + (Int.tmod i b.Width + b.X))
            = some c) ∧
        (∀ (p v : Int), (∀ (i : Nat) (c : Int), b.Matrix[i]? = some c → c ≠ 0 →
            (Int.tdiv i b.Width + (f.Height - 1 - r)) * f.Width + (Int.tmod i b.Width + b.X) ≠ p) →
          readAt gs'.Field.Matrix p = some v → v = 0) ∧
        gs'.LinesCleared = lc ∧
        gs'.Block = { NewBlock d with
          X := Int.tdiv f.Width 2 - Int.tdiv (NewBlock d).Width 2 }) := by
  obtain ⟨hWl, hfree⟩ := cellFree_of_canPlace f b hp
  obtain ⟨i0, c0, hic0, hc0, hrow0⟩ := hatt
  have hbw : b.Width ≠ 0 := by
    apply hWl
    intro h0
    rw [List.getElem?_eq_none (by omega)] at hic0
    simp at hic0
  have hr0 : 0 ≤ f.Height - 1 - r := by
    have hA := hfree i0 c0 hic0 hc0
    rw [hY] at hA
    have := hA.2.2.2.1
    omega
  have hb0 : ({ b with Y := (0 : Int) } : Block) = b := by
    cases b; simp only at hY; subst hY; rfl
  have hrun : ∀ ops : List Op, allNudgeDown ops → (ops.length : Int) ≤ f.Height - 1 - r →
      GameState.run ⟨f, b, lc⟩ ops = some ⟨f, { b with Y := (ops.length : Int) }, lc⟩ := by
    intro ops hall hle
    have := run_descent f b r lc hz hlen hY hp hbw hmax ops 0 hall (le_refl _) (by omega)
    rw [hb0, zero_add] at this
    exact this
  refine ⟨hr0, hrun, ?_⟩
  intro ops d hall hlen'
  have hplace : f.CanPlace { b with Y := f.Height - 1 - r } = some true :=
    canPlace_lowered f b r _ hz hlen hY hp hbw hmax hr0 (by omega)
  have hrej : f.CanPlace { b with Y := f.Height - 1 - r + 1 } = some false :=
    canPlace_below_floor f b r _ hlen hbw ⟨i0, c0, hic0, hc0, hrow0⟩ (by omega)
  obtain ⟨f', hdraw, hw, hh, hl, hwr, hfr⟩ :=
    drawBlock_of_canPlace f { b with Y := f.Height - 1 - r } hplace
  have hlock : GameState.Nudge ⟨f, { b with Y := f.Height - 1 - r }, lc⟩ 1 true d
      = some (GameState.centerBlock ⟨f', NewBlock d, lc⟩) := by
    unfold GameState.Nudge
    simp only [nudged_down, hrej, Block.Copy_eq, hdraw]
    simp
  have hfull : GameState.run ⟨f, b, lc⟩ (ops ++ [Op.nudge 1 true d])
      = some (GameState.centerBlock ⟨f', NewBlock d, lc⟩) := by
    have hsplit : ∀ (l1 l2 : List Op) (g g1 : GameState), g.run l1 = some g1 →
        g.run (l1 ++ l2) = g1.run l2 := by
      intro l1
      induction l1 with
      | nil =>
        intro l2 g g1 h
        simp only [GameState.run, Option.some.injEq] at h
        subst h
        rfl
      | cons o l1 ih =>
        intro l2 g g1 h
        simp only [GameState.run, List.cons_append] at h ⊢
        cases hs : g.step o with
        | none => simp [hs] at h
        | some g2 =>
          simp only [hs] at h ⊢
          exact ih l2 g2 g1 h
    rw [hsplit ops _ _ _ (hrun ops hall (by omega)), hlen']
    simp only [GameState.run, GameState.step, hlock]
  refine ⟨_, hfull, hw, hh, hl, ?_, ?_, rfl, ?_⟩
  · intro i c hic hc
    exact hwr i c hic hc
  · intro p v hp' hv
    have hv' : readAt f'.Matrix p = some v := hv
    rw [hfr p (fun i c hic hc => hp' i c hic hc)] at hv'
    exact hz v (readAt_mem _ _ _ hv')
  · simp only [GameState.centerBlock, hw]

/-- The lowest non-zero row of each spawn shape bounds the row of every
non-zero cell and is the row of one of them. -/
theorem newBlock_lowestRow (k : Nat) (hk : k < 7) :
    (∀ (i : Nat) (c : Int), (NewBlock k).Matrix[i]? = some c → c ≠ 0 →
      Int.tdiv i (NewBlock k).Width ≤ (NewBlock k).lowestRow) ∧
    (∃ (i : Nat) (c : Int), (NewBlock k).Matrix[i]? = some c ∧ c ≠ 0 ∧
      Int.tdiv i (NewBlock k).Width = (NewBlock k).lowestRow) := by
  have hb : ∀ j : Nat, (∀ i, i < (NewBlock j).Matrix.length →
      (NewBlock j).Matrix[i]?.getD 0 ≠ 0 →
        Int.tdiv i (NewBlock j).Width ≤ (NewBlock j).lowestRow) →
      ∀ (i : Nat) (c : Int), (NewBlock j).Matrix[i]? = some c → c ≠ 0 →
        Int.tdiv i (NewBlock j).Width ≤ (NewBlock j).lowestRow := fun j h =>
    forall_cells_of_bounded (NewBlock j).Matrix
      (fun i c => c ≠ 0 → Int.tdiv i (NewBlock j).Width ≤ (NewBlock j).lowestRow) h
  interval_cases k
  · exact ⟨hb 0 (by decide), 5, 1, by decide, by decide, by decide⟩
  · exact ⟨hb 1 (by decide), 3, 2, by decide, by decide, by decide⟩
  · exact ⟨hb 2 (by decide), 7, 3, by decide, by decide, by decide⟩
  · exact ⟨hb 3 (by decide), 7, 4, by decide, by decide, by decide⟩
  · exact ⟨hb 4 (by decide), 7, 5, by decide, by decide, by decide⟩
  · exact ⟨hb 5 (by decide), 5, 6, by decide, by decide, by decide⟩
  · exact ⟨hb 6 (by decide), 4, 7, by decide, by decide, by decide⟩

set_option maxRecDepth 100000 in
/-- The worked example of the specification: a 10 x 20 field, the square
spawned at `X = 4`, twenty downward nudges, whatever shape is drawn at the
lock. -/
theorem square_example :
    (New 10 20 1).map (fun g => (g.Block.X, g.Block.Y, g.Block.Matrix))
      = some (4, 0, [2, 2, 2, 2]) ∧
    ∀ d, d < 7 →
      ((New 10 20 1).bind fun g => g.run (List.replicate 20 (Op.nudge 1 true d))).map
        (fun g => [readAt g.Field.Matrix (19 * 10 + 4), readAt g.Field.Matrix (19 * 10 + 5),
          readAt g.Field.Matrix (18 * 10 + 4), readAt g.Field.Matrix (18 * 10 + 5)])
      = some [some 2, some 2, some 2, some 2] := by
  decide

/-- C17. On a `W` x `H` field, for each of the seven spawn shapes whose spawn
position is placeable, with `r` the index of the shape's lowest non-zero row:
starting from `New(W, H)`, any `n <= H-1-r` calls of `Nudge(1, true)` are all
accepted (the block is at `Y = n`, the field is still the empty one), and the
call after `H-1-r` of them locks the block: the field then holds the colour of
every cell of the shape at its place with `Y = H-1-r`, and 0 in every other
cell; one of these cells is on grid row `H-1`; `LinesCleared` is unchanged;
the new block is the drawn shape, centred, at `Y = 0`.  Example: on a 10 x 20
field with the square spawned at `X = 4`, after 20 downward nudges the cells
(4,19), (5,19), (4,18), (5,18) hold 2. -/
theorem Gravity_locks (W H : Int) (k : Nat) (hk : k < 7) (gs0 : GameState)
    (h0 : New W H k = some gs0) (hp : gs0.Field.CanPlace gs0.Block = some true) :
    0 ≤ H - 1 - (NewBlock k).lowestRow ∧
    (∀ ops : List Op, allNudgeDown ops →
      (ops.length : Int) ≤ H - 1 - (NewBlock k).lowestRow →
      gs0.run ops = some { gs0 with Block := { gs0.Block with Y := (ops.length : Int) } }) ∧
    (∀ (ops : List Op) (d : Nat), allNudgeDown ops →
      (ops.length : Int) = H - 1 - (NewBlock k).lowestRow →
      ∃ gs', gs0.run (ops ++ [Op.nudge 1 true d]) = some gs' ∧
        gs'.Field.Width = W ∧ gs'.Field.Height = H ∧
        (gs'.Field.Matrix.length : Int) = W * H ∧
        (∀ (i : Nat) (c : Int), (NewBlock k).Matrix[i]? = some c → c ≠ 0 →
          readAt gs'.Field.Matrix
            ((Int.tdiv i (NewBlock k).Width + (H - 1 - (NewBlock k).lowestRow)) * W +
              (Int.tmod i (NewBlock k).Width + gs0.Block.X)) = some c) ∧
        (∀ (p v : Int), (∀ (i : Nat) (c : Int), (NewBlock k).Matrix[i]? = some c → c ≠ 0 →
            (Int.tdiv i (NewBlock k).Width + (H - 1 - (NewBlock k).lowestRow)) * W +
              (Int.tmod i (NewBlock k).Width + gs0.Block.X) ≠ p) →
          readAt gs'.Field.Matrix p = some v → v = 0) ∧
        (∃ (i : Nat) (c : Int), (NewBlock k).Matrix[i]? = some c ∧ c ≠ 0 ∧
          Int.tdiv i (NewBlock k).Width + (H - 1 - (NewBlock k).lowestRow) = H - 1) ∧
        gs'.LinesCleared = gs0.LinesCleared ∧
        gs'.Block.Y = 0 ∧
        gs'.Block = { NewBlock d with X := Int.tdiv W 2 - Int.tdiv (NewBlock d).Width 2 }) ∧
    ((New 10 20 1).map (fun g => (g.Block.X, g.Block.Y, g.Block.Matrix))
        = some (4, 0, [2, 2, 2, 2]) ∧
      ∀ d, d < 7 →
        ((New 10 20 1).bind fun g => g.run (List.replicate 20 (Op.nudge 1 true d))).map
          (fun g => [readAt g.Field.Matrix (19 * 10 + 4), readAt g.Field.Matrix (19 * 10 + 5),
            readAt g.Field.Matrix (18 * 10 + 4), readAt g.Field.Matrix (18 * 10 + 5)])
        = some [some 2, some 2, some 2, some 2]) := by
  obtain ⟨hnn, rfl⟩ := new_result W H k gs0 h0
  obtain ⟨hmax, hatt⟩ := newBlock_lowestRow k hk
  have hY : (NewBlock k).Y = 0 := by
    unfold NewBlock; split <;> rfl
  have hz : ∀ a ∈ List.replicate (W * H).toNat (0 : Int), a = 0 :=
    fun a ha => List.eq_of_mem_replicate ha
  have hlen : ((List.replicate (W * H).toNat (0 : Int)).length : Int) = W * H := by
    rw [List.length_replicate]
    exact Int.toNat_of_nonneg hnn
  obtain ⟨h1, h2, h3⟩ := descent_and_lock
    { Width := W, Height := H, Matrix := List.replicate (W * H).toNat 0 }
    { NewBlock k with X := Int.tdiv W 2 - Int.tdiv (NewBlock k).Width 2 }
    (NewBlock k).lowestRow 0 hz hlen hY hp hmax hatt
  refine ⟨h1, h2, ?_, square_example⟩
  intro ops d hall hl
  obtain ⟨gs', e1, e2, e3, e4, e5, e6, e7, e8⟩ := h3 ops d hall hl
  refine ⟨gs', e1, e2, e3, by rw [e4]; exact hlen, e5, e6, ?_, e7, ?_, e8⟩
  · obtain ⟨i, c, hic, hc, hrow⟩ := hatt
    exact ⟨i, c, hic, hc, by rw [hrow]; ring⟩
  · rw [e8]
    exact (by unfold NewBlock; split <;> rfl : (NewBlock d).Y = 0)

set_option maxRecDepth 100000 in
/-- C17, at the 10 x 20 field with the square: eighteen accepted nudges, then
the lock with the bar drawn next. -/
theorem Gravity_locks_witness :
    (1 < 7 ∧
      New 10 20 1 = some ⟨⟨10, 20, List.replicate 200 0⟩, ⟨2, 2, 4, 0, [2, 2, 2, 2]⟩, 0⟩ ∧
      Field.CanPlace ⟨10, 20, List.replicate 200 0⟩ ⟨2, 2, 4, 0, [2, 2, 2, 2]⟩ = some true ∧
      allNudgeDown (List.replicate 18 (Op.nudge 1 true 0)) ∧
      ((List.replicate 18 (Op.nudge 1 true 0)).length : Int)
        = 20 - 1 - (NewBlock 1).lowestRow) ∧
    GameState.run ⟨⟨10, 20, List.replicate 200 0⟩, ⟨2, 2, 4, 0, [2, 2, 2, 2]⟩, 0⟩
        (List.replicate 18 (Op.nudge 1 true 0))
      = some ⟨⟨10, 20, List.replicate 200 0⟩, ⟨2, 2, 4, 18, [2, 2, 2, 2]⟩, 0⟩ ∧
    ∃ gs', GameState.run ⟨⟨10, 20, List.replicate 200 0⟩, ⟨2, 2, 4, 0, [2, 2, 2, 2]⟩, 0⟩
        (List.replicate 18 (Op.nudge 1 true 0) ++ [Op.nudge 1 true 4]) = some gs' ∧
      gs'.Field.Width = 10 ∧ gs'.Field.Height = 20 ∧
      (gs'.Field.Matrix.length : Int) = 10 * 20 ∧
      (∀ (i : Nat) (c : Int), (NewBlock 1).Matrix[i]? = some c → c ≠ 0 →
        readAt gs'.Field.Matrix
          ((Int.tdiv i (NewBlock 1).Width + (20 - 1 - (NewBlock 1).lowestRow)) * 10 +
            (Int.tmod i (NewBlock 1).Width + 4)) = some c) ∧
      (∀ (p v : Int), (∀ (i : Nat) (c : Int), (NewBlock 1).Matrix[i]? = some c → c ≠ 0 →
          (Int.tdiv i (NewBlock 1).Width + (20 - 1 - (NewBlock 1).lowestRow)) * 10 +
            (Int.tmod i (NewBlock 1).Width + 4) ≠ p) →
        readAt gs'.Field.Matrix p = some v → v = 0) ∧
      (∃ (i : Nat) (c : Int), (NewBlock 1).Matrix[i]? = some c ∧ c ≠ 0 ∧
        Int.tdiv i (NewBlock 1).Width + (20 - 1 - (NewBlock 1).lowestRow) = 20 - 1) ∧
      gs'.LinesCleared = 0 ∧
      gs'.Block.Y = 0 ∧
      gs'.Block = { NewBlock 4 with X := Int.tdiv 10 2 - Int.tdiv (NewBlock 4).Width 2 } :=
  have hall : allNudgeDown (List.replicate 18 (Op.nudge 1 true 0)) :=
    fun op hop => ⟨0, List.eq_of_mem_replicate hop⟩
  ⟨⟨by decide, by decide, by decide, hall, by decide⟩,
    (Gravity_locks 10 20 1 (by decide)
      ⟨⟨10, 20, List.replicate 200 0⟩, ⟨2, 2, 4, 0, [2, 2, 2, 2]⟩, 0⟩ (by decide)
      (by decide)).2.1 (List.replicate 18 (Op.nudge 1 true 0)) hall (by decide),
    (Gravity_locks 10 20 1 (by decide)
      ⟨⟨10, 20, List.replicate 200 0⟩, ⟨2, 2, 4, 0, [2, 2, 2, 2]⟩, 0⟩ (by decide)
      (by decide)).2.2.1 (List.replicate 18 (Op.nudge 1 true 0)) 4 hall (by decide)⟩

/-! ## The current block stays placeable -/

/-- A run of the outer loop of `ClearLines` that returns the count it was
given has cleared nothing: the matrix is the one it was given. -/
theorem clearLines_loop_zero (w : Int) :
    ∀ (n : Nat) (m m' : List Int) (c : Int),
      Field.ClearLines.loop w n m c = some (m', c) → m' = m := by
  intro n
  induction n with
  | zero =>
    intro m m' c h
    simp only [Field.ClearLines.loop, Option.some.injEq, Prod.mk.injEq] at h
    exact h.1.symm
  | succ n ih =>
    intro m m' c h
    unfold Field.ClearLines.loop at h
    cases hs : sliceAt m ((n : Int) * w) (((n : Int) + 1) * w - 1) with
    | none => simp [hs] at h
    | some line =>
      simp only [hs] at h
      by_cases hc : lineComplete line = true
      · simp only [hc, Bool.not_true, Bool.false_eq_true, if_false] at h
        cases h1 : Field.ClearLines.shift w ((n : Int) * w).toNat m with
        | none => simp [h1] at h
        | some m1 =>
          simp only [h1] at h
          cases h2 : Field.ClearLines.erase w.toNat 0 m1 with
          | none => simp [h2] at h
          | some m2 =>
            simp only [h2] at h
            have := (clearLines_loop_mem w n m2 m' (c + 1) c h).2.2
            omega
      · have hc' : lineComplete line = false := by
          cases hv : lineComplete line
          · rfl
          · exact absurd hv hc
        simp only [hc', Bool.not_false, if_true] at h
        exact ih m m' c h

/-- A `ClearLines` that returns 0 leaves the field as it was. -/
theorem clearLines_zero (f f' : Field) (h : f.ClearLines = some (f', 0)) : f' = f := by
  unfold Field.ClearLines at h
  cases hr : Field.ClearLines.loop f.Width f.Height.toNat f.Matrix 0 with
  | none => simp [hr] at h
  | some r =>
    obtain ⟨m, c⟩ := r
    simp only [hr, Option.some.injEq, Prod.mk.injEq] at h
    obtain ⟨rfl, rfl⟩ := h
    have := clearLines_loop_zero _ _ _ _ _ hr
    rw [this]

/-- On an all-zero field a block is placeable when its non-zero cells are
inside the grid. -/
theorem canPlace_empty (f : Field) (b : Block) (hz : ∀ a ∈ f.Matrix, a = 0)
    (hlen : (f.Matrix.length : Int) = f.Width * f.Height) (hbw : b.Width ≠ 0)
    (hcells : ∀ (i : Nat) (c : Int), b.Matrix[i]? = some c → c ≠ 0 →
      0 ≤ Int.tmod i b.Width + b.X ∧ Int.tmod i b.Width + b.X < f.Width ∧
      0 ≤ Int.tdiv i b.Width + b.Y ∧ Int.tdiv i b.Width + b.Y < f.Height) :
    f.CanPlace b = some true := by
  unfold Field.CanPlace
  apply (canPlace_loop_true f b hbw b.Matrix.length 0 (by omega)).2
  intro k _ _ c hkc hc
  obtain ⟨h1, h2, h3, h4⟩ := hcells k c hkc hc
  refine ⟨h1, h2, h3, h4, ?_⟩
  have hr := index_in_range f.Width f.Height _ _ h1 h2 h3 h4
  obtain ⟨v, hv⟩ := readAt_isSome_of_lt f.Matrix _ hr.1 (by rw [hlen]; exact hr.2)
  rw [hv, hz v (readAt_mem _ _ _ hv)]

/-- The bounding boxes of the seven shapes: width 2 to 4, `Width * Height`
cells, `Y = 0`, every non-zero cell in columns `0 .. Width-1` and rows
`0 .. 2`. -/
theorem newBlock_bounds (k : Nat) (hk : k < 7) :
    2 ≤ (NewBlock k).Width ∧ (NewBlock k).Width ≤ 4 ∧
    ((NewBlock k).Matrix.length : Int) = (NewBlock k).Width * (NewBlock k).Height ∧
    (NewBlock k).Y = 0 ∧
    ∀ (i : Nat) (c : Int), (NewBlock k).Matrix[i]? = some c → c ≠ 0 →
      0 ≤ Int.tmod i (NewBlock k).Width ∧
      Int.tmod i (NewBlock k).Width ≤ (NewBlock k).Width - 1 ∧
      0 ≤ Int.tdiv i (NewBlock k).Width ∧ Int.tdiv i (NewBlock k).Width ≤ 2 := by
  have hb : ∀ j : Nat, (∀ i, i < (NewBlock j).Matrix.length →
      (NewBlock j).Matrix[i]?.getD 0 ≠ 0 →
        0 ≤ Int.tmod i (NewBlock j).Width ∧
        Int.tmod i (NewBlock j).Width ≤ (NewBlock j).Width - 1 ∧
        0 ≤ Int.tdiv i (NewBlock j).Width ∧ Int.tdiv i (NewBlock j).Width ≤ 2) →
      ∀ (i : Nat) (c : Int), (NewBlock j).Matrix[i]? = some c → c ≠ 0 →
        0 ≤ Int.tmod i (NewBlock j).Width ∧
        Int.tmod i (NewBlock j).Width ≤ (NewBlock j).Width - 1 ∧
        0 ≤ Int.tdiv i (NewBlock j).Width ∧ Int.tdiv i (NewBlock j).Width ≤ 2 := fun j h =>
    forall_cells_of_bounded (NewBlock j).Matrix
      (fun i c => c ≠ 0 →
        0 ≤ Int.tmod i (NewBlock j).Width ∧
        Int.tmod i (NewBlock j).Width ≤ (NewBlock j).Width - 1 ∧
        0 ≤ Int.tdiv i (NewBlock j).Width ∧ Int.tdiv i (NewBlock j).Width ≤ 2) h
  interval_cases k
  · exact ⟨by decide, by decide, by decide, rfl, hb 0 (by decide)⟩
  · exact ⟨by decide, by decide, by decide, rfl, hb 1 (by decide)⟩
  · exact ⟨by decide, by decide, by decide, rfl, hb 2 (by decide)⟩
  · exact ⟨by decide, by decide, by decide, rfl, hb 3 (by decide)⟩
  · exact ⟨by decide, by decide, by decide, rfl, hb 4 (by decide)⟩
  · exact ⟨by decide, by decide, by decide, rfl, hb 5 (by decide)⟩
  · exact ⟨by decide, by decide, by decide, rfl, hb 6 (by decide)⟩

/-- On a board at least 4 wide and 3 high `New` returns, and the block it
spawns is placeable, whatever the draw. -/
theorem new_placeable (w h : Int) (k : Nat) (hw : 4 ≤ w) (hh : 3 ≤ h) (hk : k < 7) :
    ∃ gs0, New w h k = some gs0 ∧ gs0.Field.CanPlace gs0.Block = some true := by
  have hnn : ¬ (w * h < 0) := by
    have := mul_pos (show (0 : Int) < w by omega) (show (0 : Int) < h by omega)
    omega
  obtain ⟨b1, b2, _, b4, b5⟩ := newBlock_bounds k hk
  refine ⟨GameState.centerBlock
    { Field := { Width := w, Height := h, Matrix := List.replicate (w * h).toNat 0 },
      Block := NewBlock k, LinesCleared := 0 }, ?_, ?_⟩
  · unfold New NewField
    simp only [hnn, if_false]
  · apply canPlace_empty
    · intro a ha
      exact List.eq_of_mem_replicate ha
    · show ((List.replicate (w * h).toNat (0 : Int)).length : Int) = w * h
      rw [List.length_replicate]
      exact Int.toNat_of_nonneg (by omega)
    · show (NewBlock k).Width ≠ 0
      omega
    · intro i c hic hc
      obtain ⟨c1, c2, c3, c4⟩ := b5 i c hic hc
      show 0 ≤ Int.tmod i (NewBlock k).Width +
            (Int.tdiv w 2 - Int.tdiv (NewBlock k).Width 2) ∧
          Int.tmod i (NewBlock k).Width +
            (Int.tdiv w 2 - Int.tdiv (NewBlock k).Width 2) < w ∧
          0 ≤ Int.tdiv i (NewBlock k).Width + (NewBlock k).Y ∧
          Int.tdiv i (NewBlock k).Width + (NewBlock k).Y < h
      rw [Int.tdiv_eq_ediv (show (0 : Int) ≤ w by omega) (by decide),
        Int.tdiv_eq_ediv (show (0 : Int) ≤ (NewBlock k).Width by omega) (by decide), b4]
      refine ⟨by omega, by omega, by omega, by omega⟩

/-- After `New` with a placeable block, field and block are well formed. -/
theorem new_sound (w h : Int) (k : Nat) (gs0 : GameState) (hk : k < 7)
    (h0 : New w h k = some gs0) (hp : gs0.Field.CanPlace gs0.Block = some true) :
    gs0.sound := by
  obtain ⟨hnn, rfl⟩ := new_result w h k gs0 h0
  obtain ⟨b1, _, b3, _, _⟩ := newBlock_bounds k hk
  obtain ⟨_, i, c, hic, hc, _⟩ := newBlock_lowestRow k hk
  obtain ⟨_, hfree⟩ := cellFree_of_canPlace _ _ hp
  have hA := hfree i c hic hc
  have hx0 := hA.1
  have hx1 := hA.2.1
  refine ⟨hp, ?_, ?_, ?_, b3⟩
  · show 0 < w
    have : (0 : Int) ≤ _ := hx0
    exact lt_of_le_of_lt this hx1
  · show ((List.replicate (w * h).toNat (0 : Int)).length : Int) = w * h
    rw [List.length_replicate]
    exact Int.toNat_of_nonneg hnn
  · show 0 < (NewBlock k).Width
    omega

/-- What a safe call that spawns a block or clears a line leaves. -/
theorem safe_elim (gs gs' : GameState) (op : Op) (hsafe : gs.safe op = true)
    (hm : gs.movesCells op = true) (hs : gs.step op = some gs') :
    gs'.Field.CanPlace gs'.Block = some true := by
  unfold GameState.safe at hsafe
  rw [hm, hs] at hsafe
  simpa using hsafe

theorem nudged_fields (gs : GameState) (delta : Int) (vertical : Bool) :
    (gs.nudged delta vertical).Width = gs.Block.Width ∧
    (gs.nudged delta vertical).Height = gs.Block.Height ∧
    (gs.nudged delta vertical).Matrix = gs.Block.Matrix := by
  cases vertical <;> exact ⟨rfl, rfl, rfl⟩

/-- A safe call made in a sound state returns, and the state it leaves is
sound. -/
theorem safe_step (gs : GameState) (op : Op) (hsound : gs.sound)
    (hdraw : op.drawInRange = true) (hsafe : gs.safe op = true) :
    ∃ gs', gs.step op = some gs' ∧ gs'.sound := by
  obtain ⟨hp, hfw, hfl, hbw, hbl⟩ := hsound
  cases op with
  | nudge delta vertical draw =>
    obtain ⟨n1, n2, n3⟩ := nudged_fields gs delta vertical
    rcases canPlace_loop_total gs.Field (gs.nudged delta vertical) (by rw [n1]; omega) hfl
        (gs.nudged delta vertical).Matrix.length 0 (by omega) with h | h
    · have hc : gs.Field.CanPlace (gs.nudged delta vertical) = some true := h
      refine ⟨{ gs with Block := gs.nudged delta vertical }, ?_, hc, hfw, hfl, ?_, ?_⟩
      · simp only [GameState.step]
        unfold GameState.Nudge
        simp only [hc]
      · show 0 < (gs.nudged delta vertical).Width
        rw [n1]; exact hbw
      · show ((gs.nudged delta vertical).Matrix.length : Int)
            = (gs.nudged delta vertical).Width * (gs.nudged delta vertical).Height
        rw [n1, n2, n3]; exact hbl
    · have hc : gs.Field.CanPlace (gs.nudged delta vertical) = some false := h
      by_cases hl : vertical = true ∧ delta > 0
      · obtain ⟨f', hdrawn, hw', hh', hl', -, -⟩ := drawBlock_of_canPlace gs.Field gs.Block hp
        obtain ⟨hv, hdl⟩ := hl
        subst hv
        have hs : gs.step (Op.nudge delta true draw)
            = some (GameState.centerBlock { gs with Field := f', Block := NewBlock draw }) := by
          simp only [GameState.step]
          unfold GameState.Nudge
          simp only [hc, hdl, and_self, if_true, Block.Copy_eq, hdrawn]
        have hm : gs.movesCells (Op.nudge delta true draw) = true := by
          simp only [GameState.movesCells, hc, hdl, decide_True, Bool.and_self]
          rfl
        have hk : draw < 7 := by
          simpa [Op.drawInRange] using hdraw
        obtain ⟨b1, _, b3, _, _⟩ := newBlock_bounds draw hk
        refine ⟨_, hs, safe_elim gs _ _ hsafe hm hs, ?_, ?_, ?_, b3⟩
        · show 0 < f'.Width
          rw [hw']; exact hfw
        · show (f'.Matrix.length : Int) = f'.Width * f'.Height
          rw [hl', hw', hh']; exact hfl
        · show 0 < (NewBlock draw).Width
          omega
      · refine ⟨gs, ?_, hp, hfw, hfl, hbw, hbl⟩
        simp only [GameState.step]
        unfold GameState.Nudge
        simp only [hc, hl, if_false]
  | rotate =>
    obtain ⟨gs', hs⟩ := rotateBlock_total gs hbw hbl hfl
    refine ⟨gs', hs, ?_⟩
    obtain ⟨rot, hrot, hcase⟩ := rotateBlock_cases gs gs' hs
    have hf := rotate_fields _ _ hrot
    have hl := rotate_length _ _ hrot
    rw [Block.Copy_eq] at hf hl
    rcases hcase with ⟨hc, rfl⟩ | ⟨_, rfl⟩
    · refine ⟨hc, hfw, hfl, ?_, ?_⟩
      · show 0 < rot.Width
        rw [hf.1]; exact hbw
      · show (rot.Matrix.length : Int) = rot.Width * rot.Height
        rw [hl, hf.1, hf.2.1]; exact hbl
    · exact ⟨hp, hfw, hfl, hbw, hbl⟩
  | clear =>
    obtain ⟨⟨f, n⟩, hr⟩ := clearLines_total gs.Field hfw hfl
    have hs : gs.step Op.clear
        = some { gs with Field := f, LinesCleared := gs.LinesCleared + n } := by
      simp only [GameState.step]
      unfold GameState.ClearCompleteLines
      rw [hr]
    obtain ⟨c1, c2, c3, -, -⟩ := clearLines_result gs.Field f n hr
    refine ⟨_, hs, ?_, ?_, ?_, hbw, hbl⟩
    · by_cases hn : n = 0
      · subst hn
        have := clearLines_zero gs.Field f hr
        show f.CanPlace gs.Block = some true
        rw [this]; exact hp
      · have hm : gs.movesCells Op.clear = true := by
          simp only [GameState.movesCells, hr]
          simpa using hn
        exact safe_elim gs _ _ hsafe hm hs
    · show 0 < f.Width
      rw [c1]; exact hfw
    · show (f.Matrix.length : Int) = f.Width * f.Height
      rw [c3, c1, c2]; exact hfl

/-- A safe run from a sound state runs to its end and ends in a sound state. -/
theorem safe_run :
    ∀ (ops : List Op) (gs : GameState), gs.sound → ops.all Op.drawInRange = true →
      gs.safeRun ops = true → ∃ gs', gs.run ops = some gs' ∧ gs'.sound := by
  intro ops
  induction ops with
  | nil => intro gs hs _ _; exact ⟨gs, rfl, hs⟩
  | cons op ops ih =>
    intro gs hsound hdraws hsafe
    simp only [List.all_cons, Bool.and_eq_true] at hdraws
    simp only [GameState.safeRun, Bool.and_eq_true] at hsafe
    obtain ⟨g1, hs1, hsound1⟩ := safe_step gs op hsound hdraws.1 hsafe.1
    have hrest := hsafe.2
    simp only [hs1] at hrest
    obtain ⟨gs', hr, hsound'⟩ := ih g1 hsound1 hdraws.2 hrest
    refine ⟨gs', ?_, hsound'⟩
    simp only [GameState.run, hs1]
    exact hr

/-- C8, amended. From `New(w, h)` on a board at least 4 wide and 3 high (or on
any board on which the block that `New` spawns is placeable), for every draw
in 0..6, `New` returns a state whose block is placeable, and every finite
sequence of `Nudge`, `RotateBlock` and `ClearCompleteLines` calls with draws in
0..6 runs to its end and ends in a state whose current block is placeable
(`Field.CanPlace(Block)` holds), provided each block spawned by a lock is
placeable where it is spawned and each `ClearCompleteLines` call that clears
at least one line leaves the current block on free cells.  Rotations, accepted
and rejected nudges and `ClearCompleteLines` calls that clear nothing need no
proviso. -/
theorem Block_stays_placeable (w h : Int) (draw : Nat) (ops : List Op) (hd : draw < 7)
    (hdraws : ops.all Op.drawInRange = true)
    (hboard : (4 ≤ w ∧ 3 ≤ h) ∨
      ∃ g, New w h draw = some g ∧ g.Field.CanPlace g.Block = some true) :
    ∃ gs0, New w h draw = some gs0 ∧ gs0.Field.CanPlace gs0.Block = some true ∧
      (gs0.safeRun ops = true →
        ∃ gs', gs0.run ops = some gs' ∧ gs'.Field.CanPlace gs'.Block = some true) := by
  have hnew : ∃ g, New w h draw = some g ∧ g.Field.CanPlace g.Block = some true := by
    rcases hboard with ⟨hw, hh⟩ | hg
    · exact new_placeable w h draw hw hh hd
    · exact hg
  obtain ⟨gs0, h0, hp⟩ := hnew
  refine ⟨gs0, h0, hp, fun hsafe => ?_⟩
  obtain ⟨gs', hr, hsound⟩ := safe_run ops gs0 (new_sound w h draw gs0 hd h0 hp) hdraws hsafe
  exact ⟨gs', hr, hsound.1⟩

/-- C8 amended, on a 4 x 6 board with the bar drawn first: the run `tickOps`
locks the bar, spawns the square, clears the bar's row and goes on. -/
theorem Block_stays_placeable_witness :
    (4 < 7 ∧ tickOps.all Op.drawInRange = true ∧ ((4 : Int) ≤ 4 ∧ (3 : Int) ≤ 6)) ∧
    New 4 6 4 = some ⟨⟨4, 6, List.replicate 24 0⟩,
      ⟨4, 4, 0, 0, [0, 0, 0, 0, 5, 5, 5, 5, 0, 0, 0, 0, 0, 0, 0, 0]⟩, 0⟩ ∧
    GameState.safeRun ⟨⟨4, 6, List.replicate 24 0⟩,
      ⟨4, 4, 0, 0, [0, 0, 0, 0, 5, 5, 5, 5, 0, 0, 0, 0, 0, 0, 0, 0]⟩, 0⟩ tickOps = true ∧
    GameState.run ⟨⟨4, 6, List.replicate 24 0⟩,
      ⟨4, 4, 0, 0, [0, 0, 0, 0, 5, 5, 5, 5, 0, 0, 0, 0, 0, 0, 0, 0]⟩, 0⟩ tickOps
      = some ⟨⟨4, 6, List.replicate 24 0⟩, ⟨2, 2, 1, 1, [2, 2, 2, 2]⟩, 1⟩ ∧
    ∃ gs0, New 4 6 4 = some gs0 ∧ gs0.Field.CanPlace gs0.Block = some true ∧
      (gs0.safeRun tickOps = true →
        ∃ gs', gs0.run tickOps = some gs' ∧ gs'.Field.CanPlace gs'.Block = some true) :=
  ⟨⟨by decide, by decide, by decide, by decide⟩, by decide, by decide, by decide,
    Block_stays_placeable 4 6 4 tickOps (by decide) (by decide)
      (Or.inl ⟨by decide, by decide⟩)⟩

end LetTheBlocksFall
